import Mathlib

/-!
Verification of the graph-optimization core of `src/Act7/main.cpp`
(Kruskal MST, bitmask-DP TSP with path reconstruction, Ford-Fulkerson
max flow).  The C++ code is shallowly embedded: matrices become
functions `Nat → Nat → Nat` (the program validates all entries to be
non-negative), the memo table and the union-find arrays become explicit
functional state, bounded loops and recursions take explicit fuel
(`none` models both fuel exhaustion and the C++ `throw`), and the
`INT_MAX` / `-1` sentinels become `Option` values and `Int` reads.
The pattern `ans = INT_MAX; for ...: if (x < ans) ans = x;` is modelled
by `List.min?` of the candidate list, which is literally a `foldl min`.
-/

namespace Act7


/-- A square integer matrix, as a total function; the program only ever
reads indices below `N`. -/
abbrev Mat := Nat → Nat → Nat

/-- Number of set bits of a bitmask among the bit positions below `N`
(for the masks of the TSP solver, which are `< 2 ^ N`, these are all
set bits). -/
def setBitsBelow (N mask : Nat) : Nat :=
  ((List.range N).filter fun c => mask.testBit c).length

/-! ## The Exact Tour Solver (`tsp`, lines 580-607, and `main`, lines 461-512)

`VISITED_ALL = (1 << N) - 1` is written `2 ^ N - 1` below
(`1 <<< N = 2 ^ N` by `Nat.shiftLeft_eq`). -/

/-- The cities `city < N` with `(mask & (1 << city)) == 0`, in increasing
order: the iteration order of the city loops of `tsp` (lines 591-599) and
of the reconstruction (lines 482-491). -/
def unvisited (N mask : Nat) : List Nat :=
  (List.range N).filter fun c => mask &&& (1 <<< c) == 0

/-- Pure (memoization-free) version of `tsp` (lines 580-607).  `fuel`
bounds the recursion depth; `none` models fuel exhaustion and the
`"No valid path found in TSP."` throw (line 602, the case `found == false`,
which in the embedding is the empty candidate list).  A `none` from a
recursive call propagates, as the C++ exception does. -/
def tspAux (D : Mat) (N : Nat) : Nat → Nat → Nat → Option Nat
  | 0, _, _ => none
  | fuel + 1, mask, pos =>
    if mask = 2 ^ N - 1 then some (D pos 0)
    else
      match (unvisited N mask).mapM
          (fun c => (tspAux D N fuel (mask ||| (1 <<< c)) c).map fun r => D pos c + r) with
      | none => none
      | some costs => costs.min?

/-- The memo table `DP[1 << MAX_N][MAX_N]`: `none` is the `-1` sentinel. -/
def Table : Type := Nat → Nat → Option Nat

/-- Writing `DP[m][p] = v`. -/
def tableSet (t : Table) (m p v : Nat) : Table :=
  fun m2 p2 => if m2 = m then (if p2 = p then some v else t m2 p2) else t m2 p2

/-- The empty table (all entries `-1`, the initialization of lines 463-467). -/
def tableInit : Table := fun _ _ => none

/-- The city loop of `tsp` (lines 588-599): `acc` is the running
minimum `ans` (`none` is the initial `INT_MAX` state with `found == false`),
`rec c tab` is the memoized recursive call on city `c`, and the memo
table is threaded through the calls. -/
def tspFold (D : Mat) (pos : Nat) (rec : Nat → Table → Option (Nat × Table)) :
    List Nat → Option Nat → Table → Option (Option Nat × Table)
  | [], acc, tab => some (acc, tab)
  | c :: cs, acc, tab =>
    match rec c tab with
    | none => none
    | some (r, tab2) =>
      tspFold D pos rec cs
        (some (match acc with
          | none => D pos c + r
          | some a => min a (D pos c + r))) tab2

/-- Memoizing version of `tsp` (lines 580-607), with the table `DP` as
explicit state.  The base case (line 582) does not write the table; the
recursive case writes `DP[mask][pos] = ans` (line 605) after the city
loop, unless `found` stayed `false` (the throw at line 602, modelled by
the accumulator still being `none`). -/
def tspMemoAux (D : Mat) (N : Nat) : Nat → Nat → Nat → Table → Option (Nat × Table)
  | 0, _, _, _ => none
  | fuel + 1, mask, pos, tab =>
    if mask = 2 ^ N - 1 then some (D pos 0, tab)
    else
      match tab mask pos with
      | some v => some (v, tab)
      | none =>
        match tspFold D pos (fun c tab2 => tspMemoAux D N fuel (mask ||| (1 <<< c)) c tab2)
            (unvisited N mask) none tab with
        | none => none
        | some (none, _) => none
        | some (some ans, tab2) => some (ans, tableSet tab2 mask pos ans)

/-- The call `tsp(1, 0)` of line 470, with fuel `N` (proved sufficient
below) and the freshly initialized table. -/
def tspMain (D : Mat) (N : Nat) : Option (Nat × Table) :=
  tspMemoAux D N N 1 0 tableInit

/-- The C++ `int` read `DP[m][p]` of line 485: `-1` when unset. -/
def dpRead (tab : Table) (m p : Nat) : Int :=
  match tab m p with
  | some v => (v : Int)
  | none => -1

/-- One iteration of the best-city scan of the reconstruction loop
(lines 482-491): if `city` is unvisited, compute
`currentCost = distanceMatrix[pos][city] + DP[newMask][city]`
(`int` arithmetic: an unset `DP` entry reads as `-1`) and keep `city`
iff it strictly improves on the best so far (`none` is the initial
`bestCity == -1, bestCost == INT_MAX` state). -/
def bestStep (D : Mat) (tab : Table) (mask pos : Nat)
    (best : Option (Nat × Int)) (city : Nat) : Option (Nat × Int) :=
  if mask &&& (1 <<< city) == 0 then
    let cost : Int := (D pos city : Int) + dpRead tab (mask ||| (1 <<< city)) city
    match best with
    | none => some (city, cost)
    | some (b, bc) => if cost < bc then some (city, cost) else some (b, bc)
  else best

/-- The best-city selection of one reconstruction step (lines 479-491):
scan the cities in increasing order; the first strict improvement wins.
`none` models `bestCity == -1` (the throw at line 494). -/
def chooseBest (D : Mat) (N : Nat) (tab : Table) (mask pos : Nat) : Option (Nat × Int) :=
  (List.range N).foldl (bestStep D tab mask pos) none

/-- The reconstruction `while` loop of lines 478-502, including the
trailing `path[pathIdx++] = 0` of line 502.  `path` is the accumulated
prefix; `none` models fuel exhaustion or the line-494 throw. -/
def reconstructAux (D : Mat) (N : Nat) (tab : Table) :
    Nat → Nat → Nat → List Nat → Option (List Nat)
  | 0, _, _, _ => none
  | fuel + 1, mask, pos, path =>
    if mask = 2 ^ N - 1 then some (path ++ [0])
    else
      match chooseBest D N tab mask pos with
      | none => none
      | some (c, _) => reconstructAux D N tab fuel (mask ||| (1 <<< c)) c (path ++ [c])

/-- The Exact Tour Solver of `main` (lines 461-512): run `tsp(1, 0)`,
then reconstruct the route starting from `path = [0]`, `mask = 1`,
`pos = 0`. -/
def solveExactTour (D : Mat) (N : Nat) : Option (Nat × List Nat) :=
  match tspMain D N with
  | none => none
  | some (v, tab) =>
    match reconstructAux D N tab N 1 0 [0] with
    | none => none
    | some p => some (v, p)

/-- Sum of `D[path[k]][path[k+1]]` over consecutive entries of a path. -/
def pathSum (D : Mat) : List Nat → Nat
  | a :: b :: rest => D a b + pathSum D (b :: rest)
  | _ => 0

/-- Total distance of the closed tour `0 :: l ++ [0]`. -/
def tourCost (D : Mat) (l : List Nat) : Nat := pathSum D (0 :: (l ++ [0]))

/-- All `(N-1)!` visiting orders of the cities `1 .. N-1`. -/
def allTours (N : Nat) : List (List Nat) := (List.range' 1 (N - 1)).permutations

/-- Brute-force minimum over all tours starting and ending at node 0. -/
def bruteMin (D : Mat) (N : Nat) : Option Nat := ((allTours N).map (tourCost D)).min?

/-! ### The pure value: minimum over permutations of the unvisited set -/

/-- The mathematical value of the DP state `(mask, pos)`: the minimum,
over all orders `l` of the yet-unvisited cities, of the cost of the walk
`pos :: l ++ [0]`. -/
def minPerm (D : Mat) (N mask pos : Nat) : Option Nat :=
  (((unvisited N mask).permutations).map fun l => pathSum D (pos :: (l ++ [0]))).min?

/-- The value stored for a DP state: the underlying natural of `minPerm`. -/
def mpVal (D : Mat) (N m p : Nat) : Nat := (minPerm D N m p).getD 0

/-! ### The memoized recursion: table invariants -/

/-- Every entry ever written to the memo table is the true DP value. -/
def TabAgrees (D : Mat) (N : Nat) (tab : Table) : Prop :=
  ∀ m p v, tab m p = some v → minPerm D N m p = some v

/-- The table is closed under the DP recursion: the children of every
stored state are either the full mask (never memoized, line 582) or
also stored.  This is what guarantees the reconstruction loop only ever
reads `-1` at full-mask states. -/
def TabClosed (N : Nat) (tab : Table) : Prop :=
  ∀ m p v, tab m p = some v → m < 2 ^ N ∧
    ∀ c ∈ unvisited N m, (m ||| (1 <<< c)) = 2 ^ N - 1 ∨ (tab (m ||| (1 <<< c)) c).isSome

/-- The running minimum of the city loop, as a function of the incoming
accumulator and the list of candidate costs. -/
def minFold : Option Nat → List Nat → Option Nat
  | acc, [] => acc
  | none, x :: xs => minFold (some x) xs
  | some a, x :: xs => minFold (some (min a x)) xs

/-! ### Claim theorems for the Exact Tour Solver -/

/-- A concrete 4-node distance matrix (the worked scenario of the spec). -/
def exD4 : Mat := fun i j =>
  (([[0, 10, 15, 20], [10, 0, 35, 25], [15, 35, 0, 30],
     [20, 25, 30, 0]].getD i []).getD j 0)

/-! ## The Spanning Tree Builder
(Kruskal: `main` lines 395-459, `findSet`/`unionSets` lines 562-578) -/

/-- The `Edge` struct of lines 289-291. -/
structure Edge where
  u : Nat
  v : Nat
  weight : Nat
deriving DecidableEq

/-- Candidate enumeration (lines 405-414): all pairs `(i, j)` with
`i < j < N` and `distanceMatrix[i][j] != 0`, in row-major order. -/
def candidateEdges (D : Mat) (N : Nat) : List Edge :=
  ((List.range N).map fun i =>
    (List.range' (i + 1) (N - (i + 1))).filterMap fun j =>
      if D i j ≠ 0 then some ⟨i, j, D i j⟩ else none).flatten

/-- Index of the first minimal-weight edge of the list: the inner
selection scan of lines 421-426 (strict `<`, so the first minimum wins). -/
def minIdx : List Edge → Nat
  | [] => 0
  | [_] => 0
  | e :: f :: rest =>
    let k := minIdx (f :: rest)
    if ((f :: rest).getD k f).weight < e.weight then k + 1 else 0

/-- The selection sort of lines 420-432: swap the first minimal edge of
the remaining suffix to the front (the displaced front element lands in
the minimum's old slot), recurse on the tail. -/
def selSort : List Edge → List Edge
  | [] => []
  | e :: rest =>
    if minIdx (e :: rest) = 0 then e :: selSort rest
    else (rest.getD (minIdx (e :: rest) - 1) e) ::
      selSort (rest.set (minIdx (e :: rest) - 1) e)
termination_by l => l.length
decreasing_by
  · simp
  · simp

/-- `findSet` (lines 562-567): follow parent pointers to the root and
compress every node on the chain to point directly at it.  The reads of
the chain all use the incoming map (the C++ recursion reads
`parent[u]` before any write happens); the writes compose on the way
back.  Fuel bounds the chain length; `none` never occurs for a
well-formed forest (proved below). -/
def findSetAux (par : Nat → Nat) : Nat → Nat → Option (Nat × (Nat → Nat))
  | 0, _ => none
  | fuel + 1, u =>
    if par u = u then some (u, par)
    else
      match findSetAux par fuel (par u) with
      | none => none
      | some (r, par2) => some (r, fun x => if x = u then r else par2 x)

/-- `unionSets` (lines 569-578): merge by rank; called on two roots. -/
def unionSets (par rank : Nat → Nat) (u v : Nat) : (Nat → Nat) × (Nat → Nat) :=
  if rank u < rank v then (fun x => if x = u then v else par x, rank)
  else if rank v < rank u then (fun x => if x = v then u else par x, rank)
  else (fun x => if x = v then u else par x,
    fun x => if x = u then rank u + 1 else rank x)

/-- The acceptance loop of lines 437-448: scan the sorted edges while
fewer than `N-1` are accepted; accept an edge iff its endpoints have
different roots, then union the two roots.  `none` is model fuel
exhaustion inside `findSet` (never occurs, proved below). -/
def kruskalLoop (N : Nat) :
    List Edge → (Nat → Nat) → (Nat → Nat) → List Edge → Option (List Edge)
  | [], _, _, res => some res
  | ed :: rest, par, rank, res =>
    if res.length = N - 1 then some res
    else
      match findSetAux par N ed.u with
      | none => none
      | some (su, par1) =>
        match findSetAux par1 N ed.v with
        | none => none
        | some (sv, par2) =>
          if su ≠ sv then
            kruskalLoop N rest (unionSets par2 rank su sv).1 (unionSets par2 rank su sv).2
              (res ++ [ed])
          else kruskalLoop N rest par2 rank res

/-- The Spanning Tree Builder (`main` lines 395-459): enumerate the
nonzero candidates, throw `Disconnected` if there are none (line 417),
selection-sort by weight, run the union-find acceptance loop from the
identity forest (lines 397-400), and throw `Disconnected` unless exactly
`N-1` edges were accepted (line 451).  The outer `Option` is model fuel
(never `none`, proved below); `Except.error` carries the throws. -/
def buildMinimumSpanningTree (D : Mat) (N : Nat) : Option (Except String (List Edge)) :=
  if (candidateEdges D N).length = 0 then
    some (Except.error "No edges found in the distance matrix. The graph is disconnected.")
  else
    match kruskalLoop N (selSort (candidateEdges D N)) (fun i => i) (fun _ => 0) [] with
    | none => none
    | some res =>
      if res.length = N - 1 then some (Except.ok res)
      else some (Except.error "The graph is disconnected; cannot form a spanning tree.")

/-! ### Graph-theoretic vocabulary for the MST claims -/

/-- `a` and `b` are the endpoints of some edge of `E`, in either order. -/
def adjIn (E : List Edge) (a b : Nat) : Prop :=
  ∃ e ∈ E, (e.u = a ∧ e.v = b) ∨ (e.u = b ∧ e.v = a)

/-- Nodes connected by a chain of edges of `E`. -/
def joined (E : List Edge) : Nat → Nat → Prop :=
  Relation.ReflTransGen (adjIn E)

/-- The edge list connects all nodes `0..N-1`. -/
def spans (E : List Edge) (N : Nat) : Prop :=
  ∀ a, a < N → ∀ b, b < N → joined E a b

/-- No edge of `E` closes a cycle over the others. -/
def acyclicE (E : List Edge) : Prop :=
  ∀ e ∈ E, ¬ joined (E.erase e) e.u e.v

def weightSum (T : List Edge) : Nat := (T.map Edge.weight).sum

/-- A spanning subset of the candidate edges. -/
def isSpanningSub (D : Mat) (N : Nat) (T : List Edge) : Prop :=
  T ⊆ candidateEdges D N ∧ T.Nodup ∧ spans T N

/-- A spanning tree of the candidate graph: `N-1` candidate edges
connecting all nodes. -/
def isSpanningTree (D : Mat) (N : Nat) (T : List Edge) : Prop :=
  T ⊆ candidateEdges D N ∧ T.Nodup ∧ T.length = N - 1 ∧ spans T N

/-! ### Union-find correctness -/

/-- Follow parent pointers to a root; fuel-bounded. -/
def rootOf (par : Nat → Nat) : Nat → Nat → Option Nat
  | 0, _ => none
  | fuel + 1, u => if par u = u then some u else rootOf par fuel (par u)

/-- Well-formedness of the union-find state: parent pointers stay below
`N` and strictly increase the rank, so parent chains cannot cycle (the
classic union-by-rank certificate). -/
def RankInv (par rank : Nat → Nat) (N : Nat) : Prop :=
  ∀ u, u < N → par u < N ∧ (par u ≠ u → rank u < rank (par u))

/-! ### Example matrices for the MST witnesses and counterexamples -/

/-- Two nodes joined by one weight-7 edge. -/
def exDM2 : Mat := fun i j => if i = j then 0 else 7

/-- Three nodes: edges `(0,1)` and `(0,2)` tie at weight `2`, edge `(1,2)`
has weight `1`. -/
def exD3mst : Mat := fun i j =>
  if i = j then 0 else if (i = 1 ∧ j = 2) ∨ (i = 2 ∧ j = 1) then 1 else 2

/-! ### Max flow: Ford-Fulkerson with BFS (lines 514-544 and 609-640) -/

/-- The neighbor scan of the dequeued node `u` (lines 626-636): walk
`v = 0..N-1`; an unvisited `v` with positive residual is enqueued, gets
parent `u` and is marked visited; if `v` is the sink the whole search
returns `true` at once (the remaining `v` are not scanned). -/
def bfsScan (r : Nat → Nat → Int) (t u : Nat) :
    List Nat → (Nat → Bool) → (Nat → Nat) → List Nat →
      Bool × (Nat → Bool) × (Nat → Nat) × List Nat
  | [], vis, par, q => (false, vis, par, q)
  | v :: vs, vis, par, q =>
    if vis v then bfsScan r t u vs vis par q
    else if 0 < r u v then
      if v = t then
        (true, fun x => if x = v then true else vis x,
          fun x => if x = v then u else par x, q ++ [v])
      else
        bfsScan r t u vs (fun x => if x = v then true else vis x)
          (fun x => if x = v then u else par x) (q ++ [v])
    else bfsScan r t u vs vis par q

/-- The BFS queue loop of lines 623-637.  `none` is model fuel exhaustion
(never reached, proved below). -/
def bfsLoop (r : Nat → Nat → Int) (N t : Nat) :
    Nat → List Nat → (Nat → Bool) → (Nat → Nat) → Option (Bool × (Nat → Nat))
  | 0, _, _, _ => none
  | fuel + 1, q, vis, par =>
    match q with
    | [] => some (false, par)
    | u :: q2 =>
      match bfsScan r t u (List.range N) vis par q2 with
      | (true, _, par2, _) => some (true, par2)
      | (false, vis2, par2, q3) => bfsLoop r N t fuel q3 vis2 par2

/-- `bfs(s, t)` of lines 609-640: start from the queue `[s]` with only `s`
visited.  The returned map is the `parentFlow` array; only entries written
during this call are ever read afterwards, so the stale remainder is
modelled as `0`. -/
def bfs (r : Nat → Nat → Int) (N s t : Nat) : Option (Bool × (Nat → Nat)) :=
  bfsLoop r N t (N + 1) [s] (fun x => x == s) (fun _ => 0)

/-- The walk `for (v = t; v != 0; v = parentFlow[v])` of lines 528-537,
collecting the traversed pairs `(parentFlow[v], v)`. -/
def walkEdges (par : Nat → Nat) : Nat → Nat → Option (List (Nat × Nat))
  | 0, v => if v = 0 then some [] else none
  | fuel + 1, v =>
    if v = 0 then some []
    else
      match walkEdges par fuel (par v) with
      | none => none
      | some l => some ((par v, v) :: l)

/-- One in-place array write `residual[a][b] += d`. -/
def updRes (r : Nat → Nat → Int) (a b : Nat) (d : Int) : Nat → Nat → Int :=
  fun x y => if x = a ∧ y = b then r x y + d else r x y

/-- The augmentation writes of lines 533-537: along the walked pairs,
subtract the bottleneck from the forward entry and add it to the reverse
entry, in walk order. -/
def applyAug (f : Int) : List (Nat × Nat) → (Nat → Nat → Int) → (Nat → Nat → Int)
  | [], r => r
  | (u, v) :: rest, r => applyAug f rest (updRes (updRes r u v (-f)) v u f)

/-- The outer Ford-Fulkerson loop of lines 525-540: repeat BFS; on success
take the minimum residual along the parent walk (the `INT_MAX` fold of
lines 526-531 is the list minimum), augment, and accumulate.  Fuel is a
model artifact: the row-0 residual sum strictly decreases, so
`sum + 1` steps suffice (proved below). -/
def ffLoop (N : Nat) : Nat → (Nat → Nat → Int) → Int → Option Int
  | 0, _, _ => none
  | fuel + 1, r, acc =>
    match bfs r N 0 (N - 1) with
    | none => none
    | some (false, _) => some acc
    | some (true, par) =>
      match walkEdges par N (N - 1) with
      | none => none
      | some edges =>
        match (edges.map fun p => r p.1 p.2).min? with
        | none => none
        | some f => ffLoop N fuel (applyAug f edges r) (acc + f)

/-- The Max-Flow Solver (lines 514-544): residuals start as the capacity
matrix; run the augmentation loop from flow `0` with source `0` and sink
`N-1`. -/
def computeMaxFlow (C : Mat) (N : Nat) : Option Int :=
  ffLoop N ((((List.range N).map fun v => C 0 v).sum) + 1)
    (fun u v => (C u v : Int)) 0

/-- Positive-residual reachability: a path of strictly positive entries. -/
def ResReach (r : Nat → Nat → Int) (N : Nat) : Nat → Nat → Prop :=
  Relation.ReflTransGen fun u v => u < N ∧ v < N ∧ 0 < r u v

/-- The residual states the augmentation loop can reach: the initial
capacity matrix and every successful augmentation step from a reachable
state. -/
inductive ReachState (C : Mat) (N : Nat) : (Nat → Nat → Int) → Prop
  | init : ReachState C N fun u v => (C u v : Int)
  | step {r : Nat → Nat → Int} {par : Nat → Nat} {edges : List (Nat × Nat)} {f : Int} :
      ReachState C N r →
      bfs r N 0 (N - 1) = some (true, par) →
      walkEdges par N (N - 1) = some edges →
      (edges.map fun p => r p.1 p.2).min? = some f →
      ReachState C N (applyAug f edges r)

/-- Capacity of the cut `(S, range N \\ S)`. -/
def cutCap (C : Mat) (N : Nat) (S : Finset Nat) : Int :=
  ∑ u in S, ∑ v in (Finset.range N).filter (fun v => v ∉ S), (C u v : Int)

/-- Well-formedness of the BFS parent structure: every visited node is in
range, and a visited non-source node has a visited parent of strictly
smaller enqueue rank joined to it by positive residual. -/
def ParOk (r : Nat → Nat → Int) (N s : Nat) (vis : Nat → Bool)
    (par rk : Nat → Nat) : Prop :=
  ∀ v, vis v = true →
    v < N ∧ (v ≠ s → vis (par v) = true ∧ rk (par v) < rk v ∧ 0 < r (par v) v)

/-- The loop invariant of the Ford-Fulkerson iteration: residuals are
non-negative, antiparallel sums are preserved, internal nodes conserve
flow, and the accumulator is the net outflow of the source. -/
def FlowInv (C : Mat) (N : Nat) (r : Nat → Nat → Int) (acc : Int) : Prop :=
  (∀ u v, u < N → v < N → 0 ≤ r u v) ∧
  (∀ u v, u < N → v < N → r u v + r v u = (C u v : Int) + (C v u : Int)) ∧
  (∀ w, w < N → w ≠ 0 → w ≠ N - 1 →
    (∑ v in Finset.range N, ((C w v : Int) - r w v)) = 0) ∧
  acc = ∑ v in Finset.range N, ((C 0 v : Int) - r 0 v)

/-- Example capacity matrices. -/
def exCap2 : Mat := fun i j => if i = 0 ∧ j = 1 then 4 else 0

def exCap3 : Mat := fun _ _ => 3

/-- The whole `main` computation (lines 324-557): one `try` block runs the
Spanning Tree Builder, then the Exact Tour Solver, then the Max-Flow
Solver; any throw lands in the single `catch` of lines 554-557 and aborts
the remaining solvers. -/
def runAll (D C : Mat) (N : Nat) :
    Option (Except String (List Edge × (Nat × List Nat) × Int)) :=
  match buildMinimumSpanningTree D N with
  | none => none
  | some (Except.error e) => some (Except.error e)
  | some (Except.ok mst) =>
    match solveExactTour D N with
    | none => none
    | some tour =>
      match computeMaxFlow C N with
      | none => none
      | some F => some (Except.ok (mst, tour, F))

theorem minQ_eq_some_iff {α : Type} [LinearOrder α] {l : List α} {m : α} :
    l.min? = some m ↔ m ∈ l ∧ ∀ b ∈ l, m ≤ b :=
  have : Std.Antisymm fun x1 x2 : α => x1 ≤ x2 := ⟨fun h h2 => le_antisymm h h2⟩
  List.min?_eq_some_iff (fun a => le_refl a) (fun a b => min_choice a b)
    (fun _ _ _ => le_min_iff)

theorem minQ_isSome_iff {α : Type} [LinearOrder α] {l : List α} :
    (l.min?).isSome ↔ l ≠ [] := by
  cases l <;> simp [List.min?]

theorem minQ_mem {α : Type} [LinearOrder α] {l : List α} {m : α}
    (h : l.min? = some m) : m ∈ l :=
  (minQ_eq_some_iff.mp h).1

theorem minQ_le {α : Type} [LinearOrder α] {l : List α} {m : α}
    (h : l.min? = some m) : ∀ b ∈ l, m ≤ b :=
  (minQ_eq_some_iff.mp h).2

/-! ### Bitmask toolkit -/

theorem and_two_pow_eq_zero_iff {mask c : Nat} :
    (mask &&& 2 ^ c == 0) = !mask.testBit c := by
  rw [Nat.and_two_pow]
  cases h : mask.testBit c <;> simp [h, Nat.pow_eq_zero]

theorem and_shiftLeft_eq_zero_iff {mask c : Nat} :
    (mask &&& (1 <<< c) == 0) = !mask.testBit c := by
  rw [Nat.shiftLeft_eq, one_mul, and_two_pow_eq_zero_iff]

theorem mem_unvisited_iff {N mask c : Nat} :
    c ∈ unvisited N mask ↔ c < N ∧ mask.testBit c = false := by
  simp [unvisited, List.mem_filter, and_shiftLeft_eq_zero_iff, List.mem_range]

theorem unvisited_nodup {N mask : Nat} : (unvisited N mask).Nodup :=
  (List.nodup_range N).filter _

theorem unvisited_or_eq_erase {N mask c : Nat} :
    unvisited N (mask ||| (1 <<< c)) = (unvisited N mask).erase c := by
  rw [(@unvisited_nodup N mask).erase_eq_filter]
  unfold unvisited
  rw [List.filter_filter]
  apply List.filter_congr
  intro d _
  simp only [Nat.shiftLeft_eq, one_mul, and_two_pow_eq_zero_iff, Nat.testBit_or,
    Nat.testBit_two_pow]
  by_cases hdc : d = c
  · subst hdc; simp
  · simp [hdc, Ne.symm hdc]

theorem unvisited_nonempty {N mask : Nat} (hlt : mask < 2 ^ N) (hne : mask ≠ 2 ^ N - 1) :
    unvisited N mask ≠ [] := by
  intro hnil
  apply hne
  apply Nat.eq_of_testBit_eq
  intro i
  by_cases hi : i < N
  · have : i ∉ unvisited N mask := by simp [hnil]
    rw [mem_unvisited_iff] at this
    push_neg at this
    have hbit := this hi
    simp only [Bool.not_eq_false] at hbit
    rw [hbit, Nat.testBit_two_pow_sub_one]
    simp [hi]
  · push_neg at hi
    rw [Nat.testBit_lt_two_pow (lt_of_lt_of_le hlt (Nat.pow_le_pow_right (by norm_num) hi)),
      Nat.testBit_two_pow_sub_one]
    simp [Nat.not_lt.mpr hi]

theorem or_lt_two_pow {N mask c : Nat} (hlt : mask < 2 ^ N) (hc : c < N) :
    mask ||| (1 <<< c) < 2 ^ N := by
  rw [Nat.shiftLeft_eq, one_mul]
  exact Nat.or_lt_two_pow hlt (Nat.pow_lt_pow_right (by norm_num) hc)

theorem unvisited_length_lt {N mask c : Nat} (hc : c ∈ unvisited N mask) :
    (unvisited N (mask ||| (1 <<< c))).length < (unvisited N mask).length := by
  rw [unvisited_or_eq_erase, List.length_erase_of_mem hc]
  exact Nat.sub_lt (List.length_pos.mpr (List.ne_nil_of_mem hc)) one_pos

theorem unvisited_length_le {N mask : Nat} : (unvisited N mask).length ≤ N :=
  le_trans (List.length_filter_le _ _) (by simp)

theorem unvisited_eq_filter_not {N mask : Nat} :
    unvisited N mask = (List.range N).filter fun c => !mask.testBit c := by
  unfold unvisited
  apply List.filter_congr
  intro d _
  rw [and_shiftLeft_eq_zero_iff]

theorem setBitsBelow_add_unvisited {N mask : Nat} :
    setBitsBelow N mask + (unvisited N mask).length = N := by
  rw [setBitsBelow, unvisited_eq_filter_not]
  have h := (List.length_eq_length_filter_add (l := List.range N)
      (fun c => mask.testBit c)).symm
  rw [List.length_range] at h
  exact h

theorem unvisited_one {N : Nat} : unvisited N 1 = List.range' 1 (N - 1) := by
  cases N with
  | zero => simp [unvisited]
  | succ n =>
    unfold unvisited
    rw [List.range_eq_range', List.range'_succ, Nat.succ_sub_one]
    have h1 : ∀ c ∈ List.range' 1 n, ((1 : Nat) &&& (1 <<< c) == 0) = true := by
      intro c hc
      rw [and_shiftLeft_eq_zero_iff]
      have hc0 : c ≠ 0 := by
        have := List.mem_range'_1.mp hc
        omega
      simp only [Bool.not_eq_true']
      rw [show (1 : Nat) = 2 ^ 0 by norm_num, Nat.testBit_two_pow]
      simpa using Ne.symm hc0
    rw [show (0 + 1 : Nat) = 1 by rfl, List.filter_cons_of_neg (by decide),
      List.filter_eq_self.mpr h1]

theorem pathSum_cons_cons {D : Mat} {a b : Nat} {l : List Nat} :
    pathSum D (a :: b :: l) = D a b + pathSum D (b :: l) := by
  rw [pathSum]

theorem minPerm_isSome {D : Mat} {N mask pos : Nat} : (minPerm D N mask pos).isSome := by
  rw [minPerm, minQ_isSome_iff]
  intro h
  have hmem : unvisited N mask ∈ (unvisited N mask).permutations :=
    List.mem_permutations.mpr (List.Perm.refl _)
  rw [List.map_eq_nil_iff] at h
  exact List.ne_nil_of_mem hmem h

theorem unvisited_full {N : Nat} : unvisited N (2 ^ N - 1) = [] := by
  rw [List.eq_nil_iff_forall_not_mem]
  intro c hc
  rcases mem_unvisited_iff.mp hc with ⟨hlt, hbit⟩
  rw [Nat.testBit_two_pow_sub_one] at hbit
  simp [hlt] at hbit

theorem minPerm_full {D : Mat} {N pos : Nat} :
    minPerm D N (2 ^ N - 1) pos = some (D pos 0) := by
  rw [minPerm, unvisited_full, List.permutations_nil]
  simp [List.min?, pathSum_cons_cons, pathSum]

/-- If each child mask's value is `g c`, the value at `(mask, pos)` is the
minimum over the unvisited cities `c` of `D pos c + g c`: the recurrence
of the DP and of the reconstruction step. -/
theorem minPerm_decomp {D : Mat} {N mask pos : Nat} (g : Nat → Nat)
    (hne : unvisited N mask ≠ [])
    (hg : ∀ c ∈ unvisited N mask, minPerm D N (mask ||| (1 <<< c)) c = some (g c)) :
    minPerm D N mask pos = ((unvisited N mask).map fun c => D pos c + g c).min? := by
  obtain ⟨a, ha⟩ := Option.isSome_iff_exists.mp (@minPerm_isSome D N mask pos)
  have hb : (((unvisited N mask).map fun c => D pos c + g c).min?).isSome := by
    rw [minQ_isSome_iff]
    simpa using hne
  obtain ⟨b, hb2⟩ := Option.isSome_iff_exists.mp hb
  rw [ha, hb2]
  have ha2 := ha
  rw [minPerm] at ha2
  rcases minQ_eq_some_iff.mp ha2 with ⟨hamem, hale⟩
  rcases minQ_eq_some_iff.mp hb2 with ⟨hbmem, hble⟩
  have hab : a ≤ b := by
    rcases List.mem_map.mp hbmem with ⟨c, hc, rfl⟩
    have hgc := hg c hc
    rw [minPerm] at hgc
    rcases minQ_eq_some_iff.mp hgc with ⟨hgmem, _⟩
    rcases List.mem_map.mp hgmem with ⟨perm, hperm, hcost⟩
    have hperm2 : (c :: perm).Perm (unvisited N mask) := by
      rw [List.cons_perm_iff_perm_erase]
      exact ⟨hc, by rw [← unvisited_or_eq_erase]; exact List.mem_permutations.mp hperm⟩
    have : D pos c + g c ∈
        ((unvisited N mask).permutations.map fun l => pathSum D (pos :: (l ++ [0]))) := by
      refine List.mem_map.mpr ⟨c :: perm, List.mem_permutations.mpr hperm2, ?_⟩
      show pathSum D (pos :: ((c :: perm) ++ [0])) = D pos c + g c
      rw [List.cons_append, pathSum_cons_cons, hcost]
    exact hale _ this
  have hba : b ≤ a := by
    rcases List.mem_map.mp hamem with ⟨perm, hperm, rfl⟩
    have hperm2 := List.mem_permutations.mp hperm
    cases perm with
    | nil =>
      exact absurd hperm2.nil_eq.symm hne
    | cons c rest =>
      rcases List.cons_perm_iff_perm_erase.mp hperm2 with ⟨hc, hrest⟩
      have hrest2 : rest ∈ (unvisited N (mask ||| (1 <<< c))).permutations := by
        rw [unvisited_or_eq_erase]
        exact List.mem_permutations.mpr hrest
      have hgc := hg c hc
      rw [minPerm] at hgc
      have hgle := minQ_le hgc _ (List.mem_map.mpr ⟨rest, hrest2, rfl⟩)
      calc b ≤ D pos c + g c := hble _ (List.mem_map.mpr ⟨c, hc, rfl⟩)
        _ ≤ D pos c + pathSum D (c :: (rest ++ [0])) := by omega
        _ = pathSum D (pos :: ((c :: rest) ++ [0])) := by
            rw [List.cons_append, pathSum_cons_cons]
  exact congrArg some (le_antisymm hab hba)

/-! ### The pure recursion computes `minPerm` -/

theorem mapM_eq_some_map {α β : Type} {f : α → Option β} {g : α → β} {l : List α}
    (h : ∀ x ∈ l, f x = some (g x)) : l.mapM f = some (l.map g) := by
  induction l with
  | nil => rfl
  | cons x xs ih =>
    rw [List.mapM_cons, h x (List.mem_cons_self x xs),
      ih fun y hy => h y (List.mem_cons_of_mem x hy)]
    rfl

theorem minPerm_eq_mpVal {D : Mat} {N m p : Nat} : minPerm D N m p = some (mpVal D N m p) := by
  obtain ⟨v, hv⟩ := Option.isSome_iff_exists.mp (@minPerm_isSome D N m p)
  rw [hv, mpVal, hv]
  rfl

/-- With enough fuel, the memoization-free `tsp` computes exactly the
minimum over all completions of the current state. -/
theorem tspAux_eq_minPerm {D : Mat} {N : Nat} :
    ∀ (fuel mask pos : Nat), mask < 2 ^ N → (unvisited N mask).length < fuel →
      tspAux D N fuel mask pos = minPerm D N mask pos := by
  intro fuel
  induction fuel with
  | zero => intro mask pos _ h2; omega
  | succ fuel ih =>
    intro mask pos hlt hlen
    rw [tspAux]
    by_cases hfull : mask = 2 ^ N - 1
    · rw [if_pos hfull, hfull, minPerm_full]
    · rw [if_neg hfull]
      have hne : unvisited N mask ≠ [] := unvisited_nonempty hlt hfull
      have hg : ∀ c ∈ unvisited N mask,
          minPerm D N (mask ||| (1 <<< c)) c = some (mpVal D N (mask ||| (1 <<< c)) c) :=
        fun c _ => minPerm_eq_mpVal
      have hmapM : (unvisited N mask).mapM
          (fun c => (tspAux D N fuel (mask ||| (1 <<< c)) c).map fun r => D pos c + r)
          = some ((unvisited N mask).map fun c => D pos c + mpVal D N (mask ||| (1 <<< c)) c) := by
        apply mapM_eq_some_map
        intro c hc
        rw [ih (mask ||| (1 <<< c)) c (or_lt_two_pow hlt (mem_unvisited_iff.mp hc).1)
          (lt_of_lt_of_le (unvisited_length_lt hc) (Nat.lt_succ_iff.mp hlen)), hg c hc]
        rfl
      rw [hmapM]
      exact (minPerm_decomp _ hne hg).symm

theorem tabAgrees_init {D : Mat} {N : Nat} : TabAgrees D N tableInit := by
  intro m p v h
  simp [tableInit] at h

theorem tabClosed_init {N : Nat} : TabClosed N tableInit := by
  intro m p v h
  simp [tableInit] at h

theorem minFold_none_eq_minQ {l : List Nat} : minFold none l = l.min? := by
  cases l with
  | nil => rfl
  | cons x xs =>
    show minFold (some x) xs = some (xs.foldl min x)
    induction xs generalizing x with
    | nil => rfl
    | cons y ys ih => exact ih (min x y)

theorem tableSet_self {t : Table} {m p v : Nat} : tableSet t m p v m p = some v := by
  rw [tableSet, if_pos rfl, if_pos rfl]

theorem tableSet_cases {t : Table} {m p v m2 p2 w : Nat}
    (h : tableSet t m p v m2 p2 = some w) :
    (m2 = m ∧ p2 = p ∧ w = v) ∨ t m2 p2 = some w := by
  rw [tableSet] at h
  by_cases hm : m2 = m
  · by_cases hp : p2 = p
    · rw [if_pos hm, if_pos hp] at h
      injection h with h2
      exact Or.inl ⟨hm, hp, h2.symm⟩
    · rw [if_pos hm, if_neg hp] at h
      exact Or.inr h
  · rw [if_neg hm] at h
    exact Or.inr h

theorem tableSet_preserve {t : Table} {m p v m2 p2 w : Nat}
    (h : t m2 p2 = some w) (hne : ¬(m2 = m ∧ p2 = p)) :
    tableSet t m p v m2 p2 = some w := by
  rw [tableSet]
  by_cases hm : m2 = m
  · by_cases hp : p2 = p
    · exact absurd ⟨hm, hp⟩ hne
    · rw [if_pos hm, if_neg hp]
      exact h
  · rw [if_neg hm]
    exact h

theorem tableSet_isSome_of {t : Table} {m p v m2 p2 : Nat}
    (h : (t m2 p2).isSome) : (tableSet t m p v m2 p2).isSome := by
  rw [tableSet]
  by_cases hm : m2 = m
  · by_cases hp : p2 = p
    · rw [if_pos hm, if_pos hp]
      rfl
    · rw [if_pos hm, if_neg hp]
      exact h
  · rw [if_neg hm]
    exact h

theorem tspFold_spec {D : Mat} {N fuel mask pos : Nat}
    (hlt : mask < 2 ^ N) (hlen : (unvisited N mask).length < fuel + 1)
    (IH : ∀ mask2 pos2 tab, mask2 < 2 ^ N → (unvisited N mask2).length < fuel →
      TabAgrees D N tab → TabClosed N tab →
      ∃ v tab2, tspMemoAux D N fuel mask2 pos2 tab = some (v, tab2) ∧
        minPerm D N mask2 pos2 = some v ∧
        TabAgrees D N tab2 ∧ TabClosed N tab2 ∧
        (∀ m2 p2 w, tab m2 p2 = some w → tab2 m2 p2 = some w) ∧
        (mask2 = 2 ^ N - 1 ∨ (tab2 mask2 pos2).isSome)) :
    ∀ (cs : List Nat) (acc : Option Nat) (tab : Table), cs ⊆ unvisited N mask →
      TabAgrees D N tab → TabClosed N tab →
      ∃ accOut tab2,
        tspFold D pos (fun c tab3 => tspMemoAux D N fuel (mask ||| (1 <<< c)) c tab3) cs acc tab
          = some (accOut, tab2) ∧
        TabAgrees D N tab2 ∧ TabClosed N tab2 ∧
        (∀ m2 p2 w, tab m2 p2 = some w → tab2 m2 p2 = some w) ∧
        (∀ c ∈ cs, (mask ||| (1 <<< c)) = 2 ^ N - 1 ∨ (tab2 (mask ||| (1 <<< c)) c).isSome) ∧
        accOut = minFold acc (cs.map fun c => D pos c + mpVal D N (mask ||| (1 <<< c)) c) := by
  intro cs
  induction cs with
  | nil =>
    intro acc tab _ hA hC
    exact ⟨acc, tab, rfl, hA, hC, fun _ _ _ h => h, by simp, by simp [minFold]⟩
  | cons c cs ihcs =>
    intro acc tab hsub hA hC
    have hc : c ∈ unvisited N mask := hsub (List.mem_cons_self c cs)
    have hclt : mask ||| (1 <<< c) < 2 ^ N := or_lt_two_pow hlt (mem_unvisited_iff.mp hc).1
    have hclen : (unvisited N (mask ||| (1 <<< c))).length < fuel :=
      lt_of_lt_of_le (unvisited_length_lt hc) (Nat.lt_succ_iff.mp hlen)
    obtain ⟨r, tab2, hrun, hval, hA2, hC2, hmono2, hpres2⟩ := IH _ c tab hclt hclen hA hC
    have hr : r = mpVal D N (mask ||| (1 <<< c)) c := by
      have h2 := hval.symm.trans (minPerm_eq_mpVal (D := D) (N := N)
        (m := mask ||| (1 <<< c)) (p := c))
      injection h2
    obtain ⟨accOut, tab3, hrun3, hA3, hC3, hmono3, hpres3, haccOut⟩ :=
      ihcs (some (match acc with
        | none => D pos c + r
        | some a => min a (D pos c + r))) tab2
        (fun x hx => hsub (List.mem_cons_of_mem c hx)) hA2 hC2
    refine ⟨accOut, tab3, ?_, hA3, hC3,
      fun m2 p2 w hw => hmono3 _ _ _ (hmono2 _ _ _ hw), ?_, ?_⟩
    · rw [tspFold, hrun]
      exact hrun3
    · intro d hd
      rcases List.mem_cons.mp hd with rfl | hd2
      · rcases hpres2 with hfull | hsome
        · exact Or.inl hfull
        · right
          obtain ⟨w, hw⟩ := Option.isSome_iff_exists.mp hsome
          rw [hmono3 _ _ _ hw]
          rfl
      · exact hpres3 d hd2
    · rw [haccOut, hr]
      cases acc <;> rfl

theorem tspMemoAux_spec {D : Mat} {N : Nat} :
    ∀ (fuel mask pos : Nat) (tab : Table), mask < 2 ^ N →
      (unvisited N mask).length < fuel →
      TabAgrees D N tab → TabClosed N tab →
      ∃ v tab2, tspMemoAux D N fuel mask pos tab = some (v, tab2) ∧
        minPerm D N mask pos = some v ∧
        TabAgrees D N tab2 ∧ TabClosed N tab2 ∧
        (∀ m2 p2 w, tab m2 p2 = some w → tab2 m2 p2 = some w) ∧
        (mask = 2 ^ N - 1 ∨ (tab2 mask pos).isSome) := by
  intro fuel
  induction fuel with
  | zero => intro mask pos tab _ h2 _ _; omega
  | succ fuel ih =>
    intro mask pos tab hlt hlen hA hC
    by_cases hfull : mask = 2 ^ N - 1
    · refine ⟨D pos 0, tab, ?_, ?_, hA, hC, fun _ _ _ h => h, Or.inl hfull⟩
      · rw [tspMemoAux, if_pos hfull]
      · rw [hfull, minPerm_full]
    · match htab : tab mask pos with
      | some v =>
        refine ⟨v, tab, ?_, hA _ _ _ htab, hA, hC, fun _ _ _ h => h, Or.inr ?_⟩
        · rw [tspMemoAux, if_neg hfull, htab]
        · rw [htab]; rfl
      | none =>
        have hne : unvisited N mask ≠ [] := unvisited_nonempty hlt hfull
        obtain ⟨accOut, tab2, hrun, hA2, hC2, hmono2, hpres2, haccOut⟩ :=
          tspFold_spec hlt hlen ih (unvisited N mask) none tab
            (fun x hx => hx) hA hC
        rw [minFold_none_eq_minQ] at haccOut
        have hmapne : ((unvisited N mask).map
            fun c => D pos c + mpVal D N (mask ||| (1 <<< c)) c) ≠ [] := by
          simpa using hne
        obtain ⟨ans, hans⟩ := Option.isSome_iff_exists.mp (minQ_isSome_iff.mpr hmapne)
        rw [hans] at haccOut
        have hminP : minPerm D N mask pos = some ans := by
          rw [minPerm_decomp _ hne (fun c _ => minPerm_eq_mpVal), hans]
        refine ⟨ans, tableSet tab2 mask pos ans, ?_, hminP, ?_, ?_, ?_, Or.inr ?_⟩
        · rw [tspMemoAux, if_neg hfull, htab, hrun, haccOut]
        · intro m2 p2 w hw
          rcases tableSet_cases hw with ⟨rfl, rfl, rfl⟩ | hold
          · exact hminP
          · exact hA2 _ _ _ hold
        · intro m2 p2 w hw
          rcases tableSet_cases hw with ⟨rfl, rfl, rfl⟩ | hold
          · refine ⟨hlt, ?_⟩
            intro c hcm
            rcases hpres2 c hcm with hf | hs
            · exact Or.inl hf
            · exact Or.inr (tableSet_isSome_of hs)
          · rcases hC2 _ _ _ hold with ⟨h1, h2⟩
            refine ⟨h1, ?_⟩
            intro c hcm
            rcases h2 c hcm with hf | hs
            · exact Or.inl hf
            · exact Or.inr (tableSet_isSome_of hs)
        · intro m2 p2 w hw
          apply tableSet_preserve (hmono2 _ _ _ hw)
          rintro ⟨rfl, rfl⟩
          rw [htab] at hw
          exact Option.noConfusion hw
        · rw [tableSet_self]
          rfl

/-! ### The reconstruction loop follows an optimal tour -/

theorem bestStep_go {D : Mat} {tab : Table} {mask pos : Nat} :
    ∀ (l : List Nat) (acc : Option (Nat × Int)),
      (∀ b bc, acc = some (b, bc) →
        bc = (D pos b : Int) + dpRead tab (mask ||| (1 <<< b)) b) →
      (∀ c v, l.foldl (bestStep D tab mask pos) acc = some (c, v) →
        v = (D pos c : Int) + dpRead tab (mask ||| (1 <<< c)) c ∧
        (acc = some (c, v) ∨ ((mask &&& (1 <<< c) == 0) = true ∧ c ∈ l)) ∧
        (∀ d ∈ l, (mask &&& (1 <<< d) == 0) = true →
          v ≤ (D pos d : Int) + dpRead tab (mask ||| (1 <<< d)) d) ∧
        (∀ b bc, acc = some (b, bc) → v ≤ bc)) ∧
      (l.foldl (bestStep D tab mask pos) acc = none →
        acc = none ∧ ∀ d ∈ l, (mask &&& (1 <<< d) == 0) = false) := by
  intro l
  induction l with
  | nil =>
    intro acc hacc
    simp only [List.foldl_nil]
    constructor
    · intro c v h
      refine ⟨hacc c v h, Or.inl h, by simp, ?_⟩
      intro b bc hb
      rw [h] at hb
      injection hb with hb2
      injection hb2 with h1 h2
      omega
    · intro h
      exact ⟨h, by simp⟩
  | cons c l ih =>
    intro acc hacc
    rw [List.foldl_cons]
    rcases htest : (mask &&& (1 <<< c) == 0) with _ | _
    · -- c is visited: accumulator unchanged
      have hstep : bestStep D tab mask pos acc c = acc := by
        rw [bestStep, htest]
        simp
      rw [hstep]
      rcases ih acc hacc with ⟨ih1, ih2⟩
      constructor
      · intro cc v h
        rcases ih1 cc v h with ⟨h1, h2, h3, h4⟩
        refine ⟨h1, ?_, ?_, h4⟩
        · rcases h2 with h2 | ⟨h2a, h2b⟩
          · exact Or.inl h2
          · exact Or.inr ⟨h2a, List.mem_cons_of_mem c h2b⟩
        · intro d hd hdt
          rcases List.mem_cons.mp hd with rfl | hd2
          · rw [htest] at hdt
            exact absurd hdt (by simp)
          · exact h3 d hd2 hdt
      · intro h
        rcases ih2 h with ⟨ha, hall⟩
        refine ⟨ha, ?_⟩
        intro d hd
        rcases List.mem_cons.mp hd with rfl | hd2
        · exact htest
        · exact hall d hd2
    · -- c is unvisited
      rcases hacceq : acc with _ | ⟨b, bc⟩
      · -- initial state: c becomes the best
        have hstep : bestStep D tab mask pos none c
            = some (c, (D pos c : Int) + dpRead tab (mask ||| (1 <<< c)) c) := by
          simp [bestStep, htest]
        rw [hstep]
        have hacc2 : ∀ b2 bc2,
            (some (c, (D pos c : Int) + dpRead tab (mask ||| (1 <<< c)) c) :
              Option (Nat × Int)) = some (b2, bc2) →
            bc2 = (D pos b2 : Int) + dpRead tab (mask ||| (1 <<< b2)) b2 := by
          intro b2 bc2 h2
          injection h2 with h3
          injection h3 with h4 h5
          subst h4
          omega
        rcases ih _ hacc2 with ⟨ih1, ih2⟩
        constructor
        · intro cc v h
          rcases ih1 cc v h with ⟨h1, h2, h3, h4⟩
          refine ⟨h1, ?_, ?_, ?_⟩
          · rcases h2 with h2 | ⟨h2a, h2b⟩
            · injection h2 with h3b
              injection h3b with h4b h5b
              subst h4b
              exact Or.inr ⟨htest, List.mem_cons_self _ _⟩
            · exact Or.inr ⟨h2a, List.mem_cons_of_mem c h2b⟩
          · intro d hd hdt
            rcases List.mem_cons.mp hd with rfl | hd2
            · exact h4 _ _ rfl
            · exact h3 d hd2 hdt
          · intro b2 bc2 hb2
            exact absurd hb2 (by simp)
        · intro h
          rcases ih2 h with ⟨ha, _⟩
          exact absurd ha (by simp)
      · by_cases hlt : (D pos c : Int) + dpRead tab (mask ||| (1 <<< c)) c < bc
        · -- strict improvement: c becomes the best
          have hstep : bestStep D tab mask pos (some (b, bc)) c
              = some (c, (D pos c : Int) + dpRead tab (mask ||| (1 <<< c)) c) := by
            simp [bestStep, htest, if_pos hlt]
          rw [hstep]
          have hacc2 : ∀ b2 bc2,
              (some (c, (D pos c : Int) + dpRead tab (mask ||| (1 <<< c)) c) :
                Option (Nat × Int)) = some (b2, bc2) →
              bc2 = (D pos b2 : Int) + dpRead tab (mask ||| (1 <<< b2)) b2 := by
            intro b2 bc2 h2
            injection h2 with h3
            injection h3 with h4 h5
            subst h4
            omega
          rcases ih _ hacc2 with ⟨ih1, ih2⟩
          constructor
          · intro cc v h
            rcases ih1 cc v h with ⟨h1, h2, h3, h4⟩
            refine ⟨h1, ?_, ?_, ?_⟩
            · rcases h2 with h2 | ⟨h2a, h2b⟩
              · injection h2 with h3b
                injection h3b with h4b h5b
                subst h4b
                exact Or.inr ⟨htest, List.mem_cons_self _ _⟩
              · exact Or.inr ⟨h2a, List.mem_cons_of_mem c h2b⟩
            · intro d hd hdt
              rcases List.mem_cons.mp hd with rfl | hd2
              · exact h4 _ _ rfl
              · exact h3 d hd2 hdt
            · intro b2 bc2 hb2
              injection hb2 with hb3
              injection hb3 with hb4 hb5
              subst hb5
              exact le_trans (h4 _ _ rfl) hlt.le
          · intro h
            rcases ih2 h with ⟨ha, _⟩
            exact absurd ha (by simp)
        · -- no improvement: keep the previous best
          have hstep : bestStep D tab mask pos (some (b, bc)) c = some (b, bc) := by
            simp [bestStep, htest, if_neg hlt]
          rw [hstep]
          have hacc2 := hacc
          rw [hacceq] at hacc2
          rcases ih (some (b, bc)) hacc2 with ⟨ih1, ih2⟩
          constructor
          · intro cc v h
            rcases ih1 cc v h with ⟨h1, h2, h3, h4⟩
            refine ⟨h1, ?_, ?_, ?_⟩
            · rcases h2 with h2 | ⟨h2a, h2b⟩
              · exact Or.inl h2
              · exact Or.inr ⟨h2a, List.mem_cons_of_mem c h2b⟩
            · intro d hd hdt
              rcases List.mem_cons.mp hd with rfl | hd2
              · exact le_trans (h4 _ _ rfl) (not_lt.mp hlt)
              · exact h3 d hd2 hdt
            · exact h4
          · intro h
            rcases ih2 h with ⟨ha, _⟩
            exact absurd ha (by simp)

theorem chooseBest_spec {D : Mat} {N : Nat} {tab : Table} {mask pos : Nat}
    (hne : unvisited N mask ≠ []) :
    ∃ c v, chooseBest D N tab mask pos = some (c, v) ∧ c ∈ unvisited N mask ∧
      v = (D pos c : Int) + dpRead tab (mask ||| (1 <<< c)) c ∧
      ∀ d ∈ unvisited N mask, v ≤ (D pos d : Int) + dpRead tab (mask ||| (1 <<< d)) d := by
  have hgo := @bestStep_go D tab mask pos (List.range N) none (by simp)
  rcases h : chooseBest D N tab mask pos with _ | ⟨c, v⟩
  · have h2 := h
    unfold chooseBest at h2
    rcases hgo.2 h2 with ⟨_, hall⟩
    exfalso
    apply hne
    rw [List.eq_nil_iff_forall_not_mem]
    intro d hd
    rcases List.mem_filter.mp hd with ⟨hdr, hdt⟩
    rw [hall d hdr] at hdt
    exact Bool.false_ne_true hdt
  · have h2 := h
    unfold chooseBest at h2
    rcases hgo.1 c v h2 with ⟨h1, hsrc, h3, _⟩
    rcases hsrc with habs | ⟨h2a, h2b⟩
    · exact absurd habs.symm (by simp)
    · refine ⟨c, v, rfl, List.mem_filter.mpr ⟨h2b, h2a⟩, h1, ?_⟩
      intro d hd
      rcases List.mem_filter.mp hd with ⟨hdr, hdt⟩
      exact h3 d hdr hdt

theorem eq_singleton_of_erase_eq_nil {l : List Nat} {d : Nat}
    (hd : d ∈ l) (h : l.erase d = []) : l = [d] := by
  cases l with
  | nil => exact absurd hd (by simp)
  | cons x t =>
    by_cases hx : x = d
    · subst hx
      rw [List.erase_cons_head] at h
      rw [h]
    · rw [List.erase_cons_tail (by simpa using hx)] at h
      exact absurd h (by simp)

theorem reconstructAux_spec {D : Mat} {N : Nat} {tab : Table}
    (hA : TabAgrees D N tab) (hC : TabClosed N tab) :
    ∀ (fuel mask pos : Nat) (path : List Nat),
      mask < 2 ^ N → (unvisited N mask).length < fuel →
      (mask = 2 ^ N - 1 ∨ (tab mask pos).isSome) →
      ∃ l, reconstructAux D N tab fuel mask pos path = some (path ++ (l ++ [0])) ∧
        l.Perm (unvisited N mask) ∧
        minPerm D N mask pos = some (pathSum D (pos :: (l ++ [0]))) := by
  intro fuel
  induction fuel with
  | zero => intro mask pos path _ h2 _; omega
  | succ fuel ih =>
    intro mask pos path hlt hlen hcur
    by_cases hfull : mask = 2 ^ N - 1
    · refine ⟨[], ?_, ?_, ?_⟩
      · rw [reconstructAux, if_pos hfull]
        simp
      · rw [hfull, unvisited_full]
      · rw [hfull, minPerm_full]
        simp [pathSum_cons_cons, pathSum]
    · have hne : unvisited N mask ≠ [] := unvisited_nonempty hlt hfull
      obtain ⟨c, v, hcb, hc, hv, hbound⟩ :=
        @chooseBest_spec D N tab mask pos hne
      rcases hcur with hcur | hcur
      · exact absurd hcur hfull
      obtain ⟨w, hw⟩ := Option.isSome_iff_exists.mp hcur
      obtain ⟨_, hkids⟩ := hC _ _ _ hw
      have hopt : minPerm D N mask pos
          = some (D pos c + mpVal D N (mask ||| (1 <<< c)) c) := by
        rw [minPerm_decomp (fun d => mpVal D N (mask ||| (1 <<< d)) d) hne
          (fun d _ => minPerm_eq_mpVal)]
        rw [minQ_eq_some_iff]
        refine ⟨List.mem_map.mpr ⟨c, hc, rfl⟩, ?_⟩
        intro y hy
        rcases List.mem_map.mp hy with ⟨d, hd, rfl⟩
        by_cases hUc : unvisited N mask = [c]
        · rw [hUc, List.mem_singleton] at hd
          subst hd
          exact le_refl _
        · have hchild : ∀ e ∈ unvisited N mask,
              tab (mask ||| (1 <<< e)) e = some (mpVal D N (mask ||| (1 <<< e)) e) := by
            intro e he
            rcases hkids e he with hf | hs
            · exfalso
              have h1 : unvisited N (mask ||| (1 <<< e)) = [] := by
                rw [hf]
                exact unvisited_full
              rw [unvisited_or_eq_erase] at h1
              have h2 := eq_singleton_of_erase_eq_nil he h1
              rw [h2, List.mem_singleton] at hc
              rw [hc] at hUc
              exact hUc h2
            · obtain ⟨w2, hw2⟩ := Option.isSome_iff_exists.mp hs
              have h3 := (hA _ _ _ hw2).symm.trans
                (minPerm_eq_mpVal (D := D) (N := N) (m := mask ||| (1 <<< e)) (p := e))
              injection h3 with h4
              rw [hw2, h4]
          have hdpr : ∀ e ∈ unvisited N mask,
              dpRead tab (mask ||| (1 <<< e)) e
                = (mpVal D N (mask ||| (1 <<< e)) e : Int) := by
            intro e he
            rw [dpRead, hchild e he]
          have hZ := hbound d hd
          rw [hv, hdpr c hc, hdpr d hd] at hZ
          omega
      have hc2 := mem_unvisited_iff.mp hc
      have hclt : mask ||| (1 <<< c) < 2 ^ N := or_lt_two_pow hlt hc2.1
      have hclen : (unvisited N (mask ||| (1 <<< c))).length < fuel :=
        lt_of_lt_of_le (unvisited_length_lt hc) (Nat.lt_succ_iff.mp hlen)
      obtain ⟨l2, hrec, hperm, hsum⟩ :=
        ih (mask ||| (1 <<< c)) c (path ++ [c]) hclt hclen (hkids c hc)
      refine ⟨c :: l2, ?_, ?_, ?_⟩
      · rw [reconstructAux, if_neg hfull, hcb]
        show reconstructAux D N tab fuel (mask ||| (1 <<< c)) c (path ++ [c])
          = some (path ++ ((c :: l2) ++ [0]))
        rw [hrec]
        congr 1
        simp
      · rw [List.cons_perm_iff_perm_erase]
        exact ⟨hc, by rw [← unvisited_or_eq_erase]; exact hperm⟩
      · rw [hopt]
        congr 1
        rw [List.cons_append, pathSum_cons_cons]
        have h3 := hsum.symm.trans
          (minPerm_eq_mpVal (D := D) (N := N) (m := mask ||| (1 <<< c)) (p := c))
        injection h3 with h4
        rw [h4]

theorem one_lt_two_pow {N : Nat} (h : 1 ≤ N) : 1 < 2 ^ N :=
  lt_of_lt_of_le (by norm_num) (Nat.pow_le_pow_right (by norm_num) h)

theorem unvisited_one_length {N : Nat} (h : 1 ≤ N) :
    (unvisited N 1).length < N := by
  rw [unvisited_one, List.length_range']
  omega

theorem bruteMin_eq_minPerm {D : Mat} {N : Nat} :
    bruteMin D N = minPerm D N 1 0 := by
  rw [bruteMin, minPerm, unvisited_one]
  rfl

/-- C2: for every valid distance matrix (1 ≤ N ≤ 16; entries are
non-negative, which the `Nat`-valued matrix captures), the cost reported
by `tsp(1, 0)` equals the brute-force minimum, over all `(N-1)!` visiting
orders of cities `1..N-1`, of the literal cost of the tour that starts
and ends at node 0. -/
theorem tsp_cost_eq_bruteforce (D : Mat) (N : Nat) (h1 : 1 ≤ N) (h16 : N ≤ 16) :
    ∃ v tab, tspMain D N = some (v, tab) ∧ bruteMin D N = some v := by
  obtain ⟨v, tab, hrun, hval, _, _, _, _⟩ := tspMemoAux_spec N 1 0 tableInit
    (one_lt_two_pow h1) (unvisited_one_length h1) tabAgrees_init tabClosed_init
  refine ⟨v, tab, hrun, ?_⟩
  rw [bruteMin_eq_minPerm]
  exact hval

theorem tsp_cost_eq_bruteforce_witness :
    1 ≤ 4 ∧ 4 ≤ 16 ∧ ∃ v tab, tspMain exD4 4 = some (v, tab) ∧ bruteMin exD4 4 = some v :=
  ⟨by norm_num, by norm_num,
    tsp_cost_eq_bruteforce exD4 4 (by norm_num) (by norm_num)⟩

/-- C1: for every valid input, the reconstructed path starts and ends at
node 0, visits every node exactly once in between (its prefix without
the final 0 is a permutation of `0..N-1`), and its literal edge-by-edge
distance sum equals the cost reported by `tsp(1, 0)`. -/
theorem tsp_reconstruction_correct (D : Mat) (N : Nat) (h1 : 1 ≤ N) (h16 : N ≤ 16) :
    ∃ v tab p, tspMain D N = some (v, tab) ∧ solveExactTour D N = some (v, p) ∧
      p.head? = some 0 ∧ p.getLast? = some 0 ∧
      p.dropLast.Perm (List.range N) ∧ pathSum D p = v := by
  obtain ⟨v, tab, hrun, hval, hA2, hC2, _, hpres⟩ := tspMemoAux_spec N 1 0 tableInit
    (one_lt_two_pow h1) (unvisited_one_length h1) tabAgrees_init tabClosed_init
  obtain ⟨l, hrec, hperm, hsum⟩ := reconstructAux_spec hA2 hC2 N 1 0 [0]
    (one_lt_two_pow h1) (unvisited_one_length h1) hpres
  refine ⟨v, tab, (0 :: l) ++ [0], hrun, ?_, ?_, ?_, ?_, ?_⟩
  · unfold solveExactTour
    rw [show tspMain D N = some (v, tab) from hrun]
    show (match reconstructAux D N tab N 1 0 [0] with
      | none => none
      | some p => some (v, p)) = some (v, (0 :: l) ++ [0])
    rw [hrec]
    simp
  · rw [List.cons_append]
    rfl
  · exact List.getLast?_concat _
  · rw [List.dropLast_concat]
    rw [unvisited_one] at hperm
    obtain ⟨M, rfl⟩ : ∃ M, N = M + 1 := ⟨N - 1, by omega⟩
    rw [List.range_eq_range', List.range'_succ]
    simpa using hperm.cons 0
  · have h2 := hsum.symm.trans hval
    rw [List.cons_append]
    exact Option.some.inj h2

theorem tsp_reconstruction_correct_witness :
    1 ≤ 4 ∧ 4 ≤ 16 ∧ ∃ v tab p, tspMain exD4 4 = some (v, tab) ∧
      solveExactTour exD4 4 = some (v, p) ∧ p.head? = some 0 ∧
      p.getLast? = some 0 ∧ p.dropLast.Perm (List.range 4) ∧ pathSum exD4 p = v :=
  ⟨by norm_num, by norm_num,
    tsp_reconstruction_correct exD4 4 (by norm_num) (by norm_num)⟩

/-- C10: each recursive call of `tsp` is on a mask with exactly one more
set bit; with fuel bounded by the number of missing bits the recursion
therefore never runs out (depth at most `N`), and the reconstruction
loop with fuel `N` also terminates with a result. -/
theorem tsp_termination_bound (D : Mat) (N : Nat) (h1 : 1 ≤ N) :
    (∀ mask c, c < N → mask.testBit c = false →
      setBitsBelow N (mask ||| (1 <<< c)) = setBitsBelow N mask + 1) ∧
    (∀ fuel mask pos, mask < 2 ^ N → N - setBitsBelow N mask < fuel →
      (tspAux D N fuel mask pos).isSome) ∧
    (∃ v tab, tspMain D N = some (v, tab) ∧
      (reconstructAux D N tab N 1 0 [0]).isSome) := by
  refine ⟨?_, ?_, ?_⟩
  · intro mask c hc hbit
    have hmem : c ∈ unvisited N mask := mem_unvisited_iff.mpr ⟨hc, hbit⟩
    have h2 := @setBitsBelow_add_unvisited N mask
    have h3 := @setBitsBelow_add_unvisited N (mask ||| (1 <<< c))
    have h4 : (unvisited N (mask ||| (1 <<< c))).length
        = (unvisited N mask).length - 1 := by
      rw [unvisited_or_eq_erase, List.length_erase_of_mem hmem]
    have h5 : 1 ≤ (unvisited N mask).length :=
      List.length_pos.mpr (List.ne_nil_of_mem hmem)
    omega
  · intro fuel mask pos hlt hfuel
    have h2 := @setBitsBelow_add_unvisited N mask
    have hlen : (unvisited N mask).length < fuel := by omega
    rw [tspAux_eq_minPerm fuel mask pos hlt hlen]
    exact minPerm_isSome
  · obtain ⟨v, tab, hrun, _, hA2, hC2, _, hpres⟩ := tspMemoAux_spec N 1 0 tableInit
      (one_lt_two_pow h1) (unvisited_one_length h1) tabAgrees_init tabClosed_init
    obtain ⟨l, hrec, _, _⟩ := reconstructAux_spec hA2 hC2 N 1 0 [0]
      (one_lt_two_pow h1) (unvisited_one_length h1) hpres
    exact ⟨v, tab, hrun, by rw [hrec]; rfl⟩

theorem tsp_termination_bound_witness :
    1 ≤ 4 ∧
    ((∀ mask c, c < 4 → mask.testBit c = false →
      setBitsBelow 4 (mask ||| (1 <<< c)) = setBitsBelow 4 mask + 1) ∧
    (∀ fuel mask pos, mask < 2 ^ 4 → 4 - setBitsBelow 4 mask < fuel →
      (tspAux exD4 4 fuel mask pos).isSome) ∧
    (∃ v tab, tspMain exD4 4 = some (v, tab) ∧
      (reconstructAux exD4 4 tab 4 1 0 [0]).isSome)) :=
  ⟨by norm_num, tsp_termination_bound exD4 4 (by norm_num)⟩

theorem adjIn_symm {E : List Edge} {a b : Nat} (h : adjIn E a b) : adjIn E b a := by
  rcases h with ⟨e, he, h1 | h2⟩
  · exact ⟨e, he, Or.inr h1⟩
  · exact ⟨e, he, Or.inl h2⟩

theorem joined_symm {E : List Edge} {a b : Nat} (h : joined E a b) : joined E b a := by
  induction h with
  | refl => exact Relation.ReflTransGen.refl
  | tail _ hstep ih => exact Relation.ReflTransGen.head (adjIn_symm hstep) ih

theorem joined_mono {E E2 : List Edge} (hsub : ∀ e ∈ E, e ∈ E2) {a b : Nat}
    (h : joined E a b) : joined E2 a b := by
  refine Relation.ReflTransGen.mono ?_ h
  rintro x y ⟨e, he, hor⟩
  exact ⟨e, hsub e he, hor⟩

theorem joined_of_mem {E : List Edge} {e : Edge} (he : e ∈ E) : joined E e.u e.v :=
  Relation.ReflTransGen.single ⟨e, he, Or.inl ⟨rfl, rfl⟩⟩

theorem joined_nil_iff {a b : Nat} : joined [] a b ↔ a = b := by
  constructor
  · intro h
    induction h with
    | refl => rfl
    | tail _ hstep _ => rcases hstep with ⟨e, he, _⟩; exact absurd he (by simp)
  · rintro rfl
    exact Relation.ReflTransGen.refl

/-- If every edge of `E2` has its endpoints joined in `E1`, then `E1`
joins at least as much as `E2`. -/
theorem joined_lift {E1 E2 : List Edge} (h : ∀ e ∈ E2, joined E1 e.u e.v)
    {a b : Nat} (hj : joined E2 a b) : joined E1 a b := by
  induction hj with
  | refl => exact Relation.ReflTransGen.refl
  | tail _ hstep ih =>
    rcases hstep with ⟨e, he, ⟨h1, h2⟩ | ⟨h1, h2⟩⟩
    · exact Relation.ReflTransGen.trans ih (h1 ▸ h2 ▸ h e he)
    · exact Relation.ReflTransGen.trans ih (joined_symm (h1 ▸ h2 ▸ h e he))

/-- Replacing an edge `f` by a bridge: if every edge of `E` except `f`
is in `E2` and `f`'s endpoints are joined in `E2`, then `E2` joins
whatever `E` joins. -/
theorem joined_subst {E E2 : List Edge} {f : Edge}
    (hsub : ∀ g ∈ E, g ∈ E2 ∨ g = f) (hf : joined E2 f.u f.v)
    {a b : Nat} (hj : joined E a b) : joined E2 a b := by
  induction hj with
  | refl => exact Relation.ReflTransGen.refl
  | tail _ hstep ih =>
    rcases hstep with ⟨e, he, ⟨h1, h2⟩ | ⟨h1, h2⟩⟩
    · rcases hsub e he with hmem | rfl
      · exact Relation.ReflTransGen.tail ih ⟨e, hmem, Or.inl ⟨h1, h2⟩⟩
      · exact Relation.ReflTransGen.trans ih (h1 ▸ h2 ▸ hf)
    · rcases hsub e he with hmem | rfl
      · exact Relation.ReflTransGen.tail ih ⟨e, hmem, Or.inr ⟨h1, h2⟩⟩
      · exact Relation.ReflTransGen.trans ih (h1 ▸ h2 ▸ joined_symm hf)

/-- Decomposition of connectivity through one added edge. -/
theorem joined_append_single {E : List Edge} {e : Edge} {a b : Nat} :
    joined (E ++ [e]) a b ↔ joined E a b ∨
      (joined E a e.u ∧ joined E e.v b) ∨ (joined E a e.v ∧ joined E e.u b) := by
  constructor
  · intro h
    induction h with
    | refl => exact Or.inl Relation.ReflTransGen.refl
    | @tail mid fin hj hstep ih =>
      rcases hstep with ⟨g, hg, ⟨h1, h2⟩ | ⟨h1, h2⟩⟩ <;>
        rcases List.mem_append.mp hg with hgE | hge
      · subst h1
        subst h2
        rcases ih with ih | ⟨ih1, ih2⟩ | ⟨ih1, ih2⟩
        · exact Or.inl (Relation.ReflTransGen.tail ih ⟨g, hgE, Or.inl ⟨rfl, rfl⟩⟩)
        · exact Or.inr (Or.inl ⟨ih1,
            Relation.ReflTransGen.tail ih2 ⟨g, hgE, Or.inl ⟨rfl, rfl⟩⟩⟩)
        · exact Or.inr (Or.inr ⟨ih1,
            Relation.ReflTransGen.tail ih2 ⟨g, hgE, Or.inl ⟨rfl, rfl⟩⟩⟩)
      · have hge2 : g = e := by simpa using hge
        subst hge2
        subst h1
        subst h2
        rcases ih with ih | ⟨ih1, ih2⟩ | ⟨ih1, ih2⟩
        · exact Or.inr (Or.inl ⟨ih, Relation.ReflTransGen.refl⟩)
        · exact Or.inr (Or.inl ⟨ih1, Relation.ReflTransGen.refl⟩)
        · exact Or.inl ih1
      · subst h1
        subst h2
        rcases ih with ih | ⟨ih1, ih2⟩ | ⟨ih1, ih2⟩
        · exact Or.inl (Relation.ReflTransGen.tail ih ⟨g, hgE, Or.inr ⟨rfl, rfl⟩⟩)
        · exact Or.inr (Or.inl ⟨ih1,
            Relation.ReflTransGen.tail ih2 ⟨g, hgE, Or.inr ⟨rfl, rfl⟩⟩⟩)
        · exact Or.inr (Or.inr ⟨ih1,
            Relation.ReflTransGen.tail ih2 ⟨g, hgE, Or.inr ⟨rfl, rfl⟩⟩⟩)
      · have hge2 : g = e := by simpa using hge
        subst hge2
        subst h1
        subst h2
        rcases ih with ih | ⟨ih1, ih2⟩ | ⟨ih1, ih2⟩
        · exact Or.inr (Or.inr ⟨ih, Relation.ReflTransGen.refl⟩)
        · exact Or.inl ih1
        · exact Or.inr (Or.inr ⟨ih1, Relation.ReflTransGen.refl⟩)
  · intro h
    have hsub : ∀ g ∈ E, g ∈ E ++ [e] := fun g hg => List.mem_append.mpr (Or.inl hg)
    have hee : e ∈ E ++ [e] := List.mem_append.mpr (Or.inr (by simp))
    rcases h with h | ⟨h1, h2⟩ | ⟨h1, h2⟩
    · exact joined_mono hsub h
    · exact Relation.ReflTransGen.trans (joined_mono hsub h1)
        (Relation.ReflTransGen.trans (joined_of_mem hee) (joined_mono hsub h2))
    · exact Relation.ReflTransGen.trans (joined_mono hsub h1)
        (Relation.ReflTransGen.trans (joined_symm (joined_of_mem hee)) (joined_mono hsub h2))

/-- Any chain can be shortcut to a duplicate-free chain with the same
endpoints, using only nodes of the original chain. -/
theorem chain_dedup {E : List Edge} :
    ∀ (n : Nat) (l : List Nat) (a : Nat), l.length ≤ n → List.Chain (adjIn E) a l →
      ∃ l2, List.Chain (adjIn E) a l2 ∧ (a :: l2).Nodup ∧ (∀ x ∈ l2, x ∈ l) ∧
        (a :: l2).getLast (by simp) = (a :: l).getLast (by simp) := by
  intro n
  induction n with
  | zero =>
    intro l a hlen _
    rw [Nat.le_zero, List.length_eq_zero] at hlen
    subst hlen
    exact ⟨[], List.Chain.nil, by simp, by simp, rfl⟩
  | succ n ihn =>
    intro l a hlen hchain
    by_cases hmem : a ∈ l
    · obtain ⟨l1, l2, rfl⟩ := List.append_of_mem hmem
      have hchain2 : List.Chain (adjIn E) a l2 := (List.chain_split.mp hchain).2
      have hlen2 : l2.length ≤ n := by
        have := hlen
        simp only [List.length_append, List.length_cons] at this
        omega
      obtain ⟨l3, hc3, hnd3, hsub3, hlast3⟩ := ihn l2 a hlen2 hchain2
      refine ⟨l3, hc3, hnd3, ?_, ?_⟩
      · intro x hx
        have := hsub3 x hx
        simp [this]
      · have h1 : (a :: l3).getLast? = (a :: (l1 ++ a :: l2)).getLast? := by
          rw [List.getLast?_eq_getLast (a :: l3) (by simp), hlast3,
            ← List.getLast?_eq_getLast (a :: l2) (by simp)]
          rw [show a :: (l1 ++ a :: l2) = (a :: l1) ++ (a :: l2) by simp,
            List.getLast?_append, List.getLast?_eq_getLast (a :: l2) (by simp)]
          rfl
        rw [List.getLast?_eq_getLast (a :: l3) (by simp),
          List.getLast?_eq_getLast (a :: (l1 ++ a :: l2)) (by simp)] at h1
        injection h1
    · cases l with
      | nil => exact ⟨[], List.Chain.nil, by simp, by simp, rfl⟩
      | cons c t =>
        rcases hchain with _ | ⟨hadj, hchain2⟩
        have hlen2 : t.length ≤ n := by
          simp only [List.length_cons] at hlen
          omega
        obtain ⟨l3, hc3, hnd3, hsub3, hlast3⟩ := ihn t c hlen2 hchain2
        refine ⟨c :: l3, List.Chain.cons hadj hc3, ?_, ?_, ?_⟩
        · rw [List.nodup_cons]
          refine ⟨?_, hnd3⟩
          intro hmem2
          apply hmem
          rcases List.mem_cons.mp hmem2 with rfl | hmem3
          · exact List.mem_cons_self _ _
          · exact List.mem_cons_of_mem _ (hsub3 a hmem3)
        · intro x hx
          rcases List.mem_cons.mp hx with rfl | hx2
          · exact List.mem_cons_self _ _
          · exact List.mem_cons_of_mem _ (hsub3 x hx2)
        · rw [List.getLast_cons_cons, List.getLast_cons_cons]
          exact hlast3

/-- If `w` does not occur in the chain, no step of the chain can use an
edge with endpoint `w`; the walk survives erasing such an edge. -/
theorem chain_avoid_erase {E : List Edge} {g : Edge} {w : Nat}
    (hw : g.u = w ∨ g.v = w) :
    ∀ (l : List Nat) (c : Nat), List.Chain (adjIn E) c l → w ∉ (c :: l) →
      joined (E.erase g) c ((c :: l).getLast (by simp)) := by
  intro l
  induction l with
  | nil =>
    intro c _ _
    exact Relation.ReflTransGen.refl
  | cons d t ih =>
    intro c hchain hnmem
    rcases hchain with _ | ⟨hadj, hchain2⟩
    rcases hadj with ⟨h, hh, hor⟩
    have hne : h ≠ g := by
      intro rfl2
      subst rfl2
      rcases hor with ⟨h1, h2⟩ | ⟨h1, h2⟩ <;> rcases hw with hw | hw <;>
        simp_all [List.mem_cons]
    have hstep : adjIn (E.erase g) c d :=
      ⟨h, (List.mem_erase_of_ne hne).mpr hh, hor⟩
    have ht := ih d hchain2 (fun hmem => hnmem (List.mem_cons_of_mem c hmem))
    rw [List.getLast_cons (by simp)]
    exact Relation.ReflTransGen.head hstep ht

/-- Crossing-edge extraction along a duplicate-free chain. -/
theorem chain_crossing {T : List Edge} {S : Nat → Prop} :
    ∀ (l : List Nat) (x : Nat), List.Chain (adjIn T) x l → (x :: l).Nodup →
      S x → ¬ S ((x :: l).getLast (by simp)) →
      ∃ f a b, f ∈ T ∧ ((f.u = a ∧ f.v = b) ∨ (f.u = b ∧ f.v = a)) ∧ S a ∧ ¬ S b ∧
        joined (T.erase f) x a ∧ joined (T.erase f) b ((x :: l).getLast (by simp)) := by
  intro l
  induction l with
  | nil =>
    intro x _ _ hx hy
    exact absurd hx hy
  | cons c t ih =>
    intro x hchain hnd hx hy
    rcases hchain with _ | ⟨hadj, hchain2⟩
    rw [List.getLast_cons_cons] at hy ⊢
    by_cases hcS : S c
    · have hnd3 : (c :: t).Nodup := (List.nodup_cons.mp hnd).2
      obtain ⟨f, a, b, hf, hor, ha, hb, hja, hjb⟩ := ih c hchain2 hnd3 hcS hy
      refine ⟨f, a, b, hf, hor, ha, hb, ?_, hjb⟩
      rcases hadj with ⟨h, hh, horh⟩
      have hne : h ≠ f := by
        intro rfl2
        subst rfl2
        rcases hor with ⟨h1, h2⟩ | ⟨h1, h2⟩ <;> rcases horh with ⟨h3, h4⟩ | ⟨h3, h4⟩ <;>
          subst h1 <;> subst h2 <;> simp_all
      exact Relation.ReflTransGen.head ⟨h, (List.mem_erase_of_ne hne).mpr hh, horh⟩ hja
    · rcases hadj with ⟨h, hh, horh⟩
      have hwend : h.u = x ∨ h.v = x := by
        rcases horh with ⟨h1, _⟩ | ⟨_, h2⟩
        · exact Or.inl h1
        · exact Or.inr h2
      have hxt : x ∉ (c :: t) := (List.nodup_cons.mp hnd).1
      have hjb : joined (T.erase h) c ((c :: t).getLast (by simp)) :=
        chain_avoid_erase hwend t c hchain2 hxt
      exact ⟨h, x, c, hh, horh, hx, hcS, Relation.ReflTransGen.refl, hjb⟩

/-- Crossing-edge extraction: a walk from inside `S` to outside `S`
uses some edge `f` crossing `S`, and the two walk segments on either
side of `f` avoid `f` itself. -/
theorem joined_crossing {T : List Edge} {S : Nat → Prop} {x y : Nat}
    (hj : joined T x y) (hx : S x) (hy : ¬ S y) :
    ∃ f a b, f ∈ T ∧ ((f.u = a ∧ f.v = b) ∨ (f.u = b ∧ f.v = a)) ∧ S a ∧ ¬ S b ∧
      joined (T.erase f) x a ∧ joined (T.erase f) b y := by
  obtain ⟨l, hchain, hlast⟩ := List.exists_chain_of_relationReflTransGen hj
  obtain ⟨l2, hc2, hnd2, _, hlast2⟩ := chain_dedup l.length l x (le_refl _) hchain
  rw [hlast] at hlast2
  have hy2 : ¬ S ((x :: l2).getLast (by simp)) := by
    rw [hlast2]
    exact hy
  obtain ⟨f, a, b, hf, hor, ha, hb, hja, hjb⟩ := chain_crossing l2 x hc2 hnd2 hx hy2
  rw [hlast2] at hjb
  exact ⟨f, a, b, hf, hor, ha, hb, hja, hjb⟩

theorem rootOf_mono {par : Nat → Nat} :
    ∀ {fuel u r : Nat}, rootOf par fuel u = some r → rootOf par (fuel + 1) u = some r := by
  intro fuel
  induction fuel with
  | zero => intro u r h; exact absurd h (by simp [rootOf])
  | succ fuel ih =>
    intro u r h
    rw [rootOf] at h
    by_cases hf : par u = u
    · rw [if_pos hf] at h
      rw [rootOf, if_pos hf]
      exact h
    · rw [if_neg hf] at h
      rw [rootOf, if_neg hf]
      exact ih h

theorem rootOf_le_mono {par : Nat → Nat} {fuel fuel2 u r : Nat} (hle : fuel ≤ fuel2)
    (h : rootOf par fuel u = some r) : rootOf par fuel2 u = some r := by
  induction fuel2 with
  | zero =>
    rw [Nat.le_zero] at hle
    subst hle
    exact h
  | succ fuel2 ih =>
    rcases Nat.lt_or_ge fuel (fuel2 + 1) with hlt | hge
    · exact rootOf_mono (ih (by omega))
    · rw [show fuel = fuel2 + 1 by omega] at h
      exact h

theorem rootOf_unique {par : Nat → Nat} {f1 f2 u r1 r2 : Nat}
    (h1 : rootOf par f1 u = some r1) (h2 : rootOf par f2 u = some r2) : r1 = r2 := by
  have h3 := rootOf_le_mono (Nat.le_max_left f1 f2) h1
  have h4 := rootOf_le_mono (Nat.le_max_right f1 f2) h2
  rw [h3] at h4
  injection h4

theorem rootOf_isFix {par : Nat → Nat} :
    ∀ {fuel u r : Nat}, rootOf par fuel u = some r → par r = r := by
  intro fuel
  induction fuel with
  | zero => intro u r h; exact absurd h (by simp [rootOf])
  | succ fuel ih =>
    intro u r h
    rw [rootOf] at h
    by_cases hf : par u = u
    · rw [if_pos hf] at h
      injection h with h2
      rw [← h2]
      exact hf
    · rw [if_neg hf] at h
      exact ih h

theorem rootOf_fix_self {par : Nat → Nat} {fuel u : Nat} (hf : par u = u) (h1 : 1 ≤ fuel) :
    rootOf par fuel u = some u := by
  obtain ⟨f, rfl⟩ : ∃ f, fuel = f + 1 := ⟨fuel - 1, by omega⟩
  rw [rootOf, if_pos hf]

theorem rootOf_lt {par : Nat → Nat} {N : Nat} (hpar : ∀ w, w < N → par w < N) :
    ∀ {fuel u r : Nat}, u < N → rootOf par fuel u = some r → r < N := by
  intro fuel
  induction fuel with
  | zero => intro u r _ h; exact absurd h (by simp [rootOf])
  | succ fuel ih =>
    intro u r hu h
    rw [rootOf] at h
    by_cases hf : par u = u
    · rw [if_pos hf] at h
      injection h with h2
      rw [← h2]
      exact hu
    · rw [if_neg hf] at h
      exact ih (hpar u hu) h

theorem rank_lt_root {par rank : Nat → Nat} {N : Nat} (hInv : RankInv par rank N) :
    ∀ {fuel u r : Nat}, u < N → rootOf par fuel u = some r → u ≠ r → rank u < rank r := by
  intro fuel
  induction fuel with
  | zero => intro u r _ h; exact absurd h (by simp [rootOf])
  | succ fuel ih =>
    intro u r hu h hne
    rw [rootOf] at h
    by_cases hf : par u = u
    · rw [if_pos hf] at h
      injection h with h2
      exact absurd h2 hne
    · rw [if_neg hf] at h
      rcases hInv u hu with ⟨hlt, hrank⟩
      by_cases hpr : par u = r
      · rw [← hpr]
        exact hrank hf
      · exact lt_trans (hrank hf) (ih hlt h hpr)

/-- The rank certificate guarantees that fuel `N` always reaches a root. -/
theorem rootOf_total {par rank : Nat → Nat} {N : Nat} (hInv : RankInv par rank N) :
    ∀ u, u < N → (rootOf par N u).isSome := by
  have aux : ∀ k u, u < N →
      ((Finset.range N).filter fun v => rank u < rank v).card < k →
      (rootOf par k u).isSome := by
    intro k
    induction k with
    | zero => intro u _ h; omega
    | succ k ih =>
      intro u hu hcard
      rw [rootOf]
      by_cases hf : par u = u
      · rw [if_pos hf]
        rfl
      · rw [if_neg hf]
        rcases hInv u hu with ⟨hlt, hrank⟩
        apply ih (par u) hlt
        have hss : ((Finset.range N).filter fun v => rank (par u) < rank v) ⊂
            ((Finset.range N).filter fun v => rank u < rank v) := by
          constructor
          · intro v hv
            rcases Finset.mem_filter.mp hv with ⟨hv1, hv2⟩
            exact Finset.mem_filter.mpr ⟨hv1, lt_trans (hrank hf) hv2⟩
          · intro hsub
            have : par u ∈ (Finset.range N).filter fun v => rank u < rank v :=
              Finset.mem_filter.mpr ⟨Finset.mem_range.mpr hlt, hrank hf⟩
            have h2 := hsub this
            rcases Finset.mem_filter.mp h2 with ⟨_, h3⟩
            exact lt_irrefl _ h3
        have := Finset.card_lt_card hss
        omega
  intro u hu
  apply aux N u hu
  have hsub : ((Finset.range N).filter fun v => rank u < rank v) ⊆
      (Finset.range N).erase u := by
    intro v hv
    rcases Finset.mem_filter.mp hv with ⟨hv1, hv2⟩
    refine Finset.mem_erase.mpr ⟨?_, hv1⟩
    intro rfl2
    subst rfl2
    exact lt_irrefl _ hv2
  have h2 := Finset.card_le_card hsub
  rw [Finset.card_erase_of_mem (Finset.mem_range.mpr hu), Finset.card_range] at h2
  omega

/-- `findSet` returns the root and only reroutes chain nodes straight
to it. -/
theorem findSetAux_spec {par : Nat → Nat} :
    ∀ {fuel u r : Nat}, rootOf par fuel u = some r →
      ∃ par2, findSetAux par fuel u = some (r, par2) ∧
        ∀ x, par2 x = par x ∨
          (par2 x = r ∧ par x ≠ x ∧ ∃ f2, rootOf par f2 x = some r) := by
  intro fuel
  induction fuel with
  | zero => intro u r h; exact absurd h (by simp [rootOf])
  | succ fuel ih =>
    intro u r h
    rw [rootOf] at h
    by_cases hf : par u = u
    · rw [if_pos hf] at h
      injection h with h2
      subst h2
      exact ⟨par, by rw [findSetAux, if_pos hf], fun x => Or.inl rfl⟩
    · rw [if_neg hf] at h
      obtain ⟨par3, hrun, hchar⟩ := ih h
      refine ⟨fun x => if x = u then r else par3 x, ?_, ?_⟩
      · rw [findSetAux, if_neg hf, hrun]
      · intro x
        by_cases hx : x = u
        · subst hx
          refine Or.inr ⟨if_pos rfl, hf, fuel + 1, ?_⟩
          rw [rootOf, if_neg hf]
          exact h
        · simp only [if_neg hx]
          exact hchar x

/-- Path compression does not change which nodes are roots. -/
theorem findSetAux_fix_iff {par par2 : Nat → Nat} {r : Nat}
    (hchar : ∀ x, par2 x = par x ∨
      (par2 x = r ∧ par x ≠ x ∧ ∃ f2, rootOf par f2 x = some r)) :
    ∀ x, par2 x = x ↔ par x = x := by
  intro x
  rcases hchar x with hc | ⟨hc, hne, f2, hroot⟩
  · rw [hc]
  · constructor
    · intro h2
      rw [hc] at h2
      subst h2
      exact absurd (rootOf_isFix hroot) hne
    · intro h2
      exact absurd h2 hne

/-- Path compression preserves the union-find certificate. -/
theorem findSetAux_rankInv {par par2 rank : Nat → Nat} {N r : Nat}
    (hInv : RankInv par rank N)
    (hchar : ∀ x, par2 x = par x ∨
      (par2 x = r ∧ par x ≠ x ∧ ∃ f2, rootOf par f2 x = some r)) :
    RankInv par2 rank N := by
  intro x hx
  rcases hchar x with hc | ⟨hc, hne, f2, hroot⟩
  · rw [hc]
    exact hInv x hx
  · rw [hc]
    have hrN : r < N := rootOf_lt (fun w hw => (hInv w hw).1) hx hroot
    refine ⟨hrN, ?_⟩
    intro hxr
    exact rank_lt_root hInv hx hroot (Ne.symm hxr)

/-- Path compression preserves every root, at the same fuel. -/
theorem findSetAux_root_preserved {par par2 : Nat → Nat} {r : Nat}
    (hchar : ∀ x, par2 x = par x ∨
      (par2 x = r ∧ par x ≠ x ∧ ∃ f2, rootOf par f2 x = some r)) :
    ∀ {f x s}, rootOf par f x = some s → rootOf par2 f x = some s := by
  intro f
  induction f with
  | zero => intro x s h; exact absurd h (by simp [rootOf])
  | succ f ih =>
    intro x s h
    rw [rootOf] at h
    by_cases hf : par x = x
    · rw [if_pos hf] at h
      rw [rootOf, if_pos (((findSetAux_fix_iff hchar) x).mpr hf)]
      exact h
    · rw [if_neg hf] at h
      have hfix2 : par2 x ≠ x := fun h2 => hf (((findSetAux_fix_iff hchar) x).mp h2)
      rw [rootOf, if_neg hfix2]
      rcases hchar x with hc | ⟨hc, _, f2, hroot⟩
      · rw [hc]
        exact ih h
      · have hs : r = s := by
          have h2 : rootOf par (f + 1) x = some s := by
            rw [rootOf, if_neg hf]
            exact h
          exact rootOf_unique hroot h2
        subst hs
        rw [hc]
        have hfix3 : par r = r := rootOf_isFix hroot
        have hf1 : 1 ≤ f := by
          rcases Nat.eq_zero_or_pos f with rfl | hpos
          · rw [rootOf] at h
            exact absurd h (by simp)
          · exact hpos
        exact rootOf_fix_self (((findSetAux_fix_iff hchar) r).mpr hfix3) hf1

/-- Rerouting one root `cw` to another root `cr` remaps every root
through the merge, at fuel one larger. -/
theorem rootOf_update {par par3 : Nat → Nat} {cw cr : Nat}
    (hpar3 : ∀ z, par3 z = if z = cw then cr else par z)
    (hcw : par cw = cw) (hcr : par cr = cr) (hne : cw ≠ cr) :
    ∀ {f x s}, rootOf par f x = some s →
      rootOf par3 (f + 1) x = some (if s = cw then cr else s) := by
  intro f
  induction f with
  | zero => intro x s h; exact absurd h (by simp [rootOf])
  | succ f ih =>
    intro x s h
    rw [rootOf] at h
    by_cases hf : par x = x
    · rw [if_pos hf] at h
      injection h with h2
      subst h2
      by_cases hxc : x = cw
      · rw [hxc, if_pos rfl]
        have h3 : par3 cw = cr := by rw [hpar3 cw, if_pos rfl]
        rw [rootOf, h3, if_neg (Ne.symm hne)]
        apply rootOf_fix_self
        · rw [hpar3 cr, if_neg (Ne.symm hne)]
          exact hcr
        · omega
      · rw [if_neg hxc]
        apply rootOf_fix_self
        · rw [hpar3 x, if_neg hxc]
          exact hf
        · omega
    · rw [if_neg hf] at h
      have hxc : x ≠ cw := by
        intro rfl2
        subst rfl2
        exact hf hcw
      have h3 : par3 x = par x := by rw [hpar3, if_neg hxc]
      have h4 : par3 x ≠ x := by
        rw [h3]
        exact hf
      rw [rootOf, if_neg h4, h3]
      exact ih h

/-- Certificate preservation for rerouting a root `cw` under a root
`cr`, with ranks only growing and only at `cr`. -/
theorem rankInv_union {par par3 rank rank3 : Nat → Nat} {N cw cr : Nat}
    (hInv : RankInv par rank N) (hcrN : cr < N) (hcrfix : par cr = cr)
    (hpar3 : ∀ z, par3 z = if z = cw then cr else par z)
    (hr1 : ∀ z, rank z ≤ rank3 z)
    (hr2 : ∀ z, z ≠ cr → rank3 z = rank z)
    (hr3 : rank3 cw < rank3 cr) :
    RankInv par3 rank3 N := by
  intro x hx
  rw [hpar3 x]
  by_cases hxc : x = cw
  · rw [if_pos hxc]
    refine ⟨hcrN, fun _ => ?_⟩
    rw [hxc]
    exact hr3
  · rw [if_neg hxc]
    rcases hInv x hx with ⟨ha, hb⟩
    refine ⟨ha, fun hne3 => ?_⟩
    have hxcr : x ≠ cr := by
      intro rfl2
      subst rfl2
      exact hne3 hcrfix
    rw [hr2 x hxcr]
    exact lt_of_lt_of_le (hb hne3) (hr1 (par x))

/-- The shape and certificate preservation of `unionSets` on two
distinct roots. -/
theorem unionSets_spec {par rank : Nat → Nat} {N su sv : Nat}
    (hInv : RankInv par rank N) (hsu : par su = su) (hsv : par sv = sv)
    (hne : su ≠ sv) (hsuN : su < N) (hsvN : sv < N) :
    ∃ cw cr, ((cw = su ∧ cr = sv) ∨ (cw = sv ∧ cr = su)) ∧
      (∀ z, (unionSets par rank su sv).1 z = if z = cw then cr else par z) ∧
      RankInv (unionSets par rank su sv).1 (unionSets par rank su sv).2 N := by
  by_cases h1 : rank su < rank sv
  · have hpair : unionSets par rank su sv = (fun x => if x = su then sv else par x, rank) := by
      rw [unionSets, if_pos h1]
    refine ⟨su, sv, Or.inl ⟨rfl, rfl⟩, fun z => by rw [hpair], ?_⟩
    rw [hpair]
    exact rankInv_union hInv hsvN hsv (fun z => rfl) (fun z => le_refl _)
      (fun z _ => rfl) h1
  · by_cases h2 : rank sv < rank su
    · have hpair : unionSets par rank su sv
          = (fun x => if x = sv then su else par x, rank) := by
        rw [unionSets, if_neg h1, if_pos h2]
      refine ⟨sv, su, Or.inr ⟨rfl, rfl⟩, fun z => by rw [hpair], ?_⟩
      rw [hpair]
      exact rankInv_union hInv hsuN hsu (fun z => rfl) (fun z => le_refl _)
        (fun z _ => rfl) h2
    · have hpair : unionSets par rank su sv
          = (fun x => if x = sv then su else par x,
             fun x => if x = su then rank su + 1 else rank x) := by
        rw [unionSets, if_neg h1, if_neg h2]
      have heq : rank su = rank sv := by omega
      refine ⟨sv, su, Or.inr ⟨rfl, rfl⟩, fun z => by rw [hpair], ?_⟩
      rw [hpair]
      refine rankInv_union hInv hsuN hsu (fun z => rfl) ?_ ?_ ?_
      · intro z
        show rank z ≤ if z = su then rank su + 1 else rank z
        by_cases hz : z = su
        · rw [if_pos hz, hz]
          omega
        · rw [if_neg hz]
      · intro z hz
        show (if z = su then rank su + 1 else rank z) = rank z
        rw [if_neg hz]
      · show (if sv = su then rank su + 1 else rank sv) < if su = su then rank su + 1 else rank su
        rw [if_neg (Ne.symm hne), if_pos rfl]
        omega

/-! ### Selection sort: permutation and sortedness -/

theorem minIdx_spec : ∀ (l : List Edge) (dflt : Edge), l ≠ [] →
    minIdx l < l.length ∧ ∀ f ∈ l, (l.getD (minIdx l) dflt).weight ≤ f.weight := by
  intro l
  induction l with
  | nil => intro dflt h; exact absurd rfl h
  | cons e rest ih =>
    intro dflt _
    cases rest with
    | nil =>
      refine ⟨by simp [minIdx], ?_⟩
      intro f hf
      rcases List.mem_singleton.mp hf with rfl
      simp [minIdx, List.getD]
    | cons f2 t =>
      obtain ⟨ihlt, ihmin⟩ := ih dflt (by simp)
      have ihlt2 : minIdx (f2 :: t) < t.length + 1 := by simpa using ihlt
      rw [minIdx]
      by_cases hc : ((f2 :: t).getD (minIdx (f2 :: t)) f2).weight < e.weight
      · rw [if_pos hc]
        have hgd : ∀ d2 : Edge, (f2 :: t).getD (minIdx (f2 :: t)) d2
            = (f2 :: t).getD (minIdx (f2 :: t)) f2 := by
          intro d2
          rw [List.getD_eq_getElem (f2 :: t) d2 ihlt, List.getD_eq_getElem (f2 :: t) f2 ihlt]
        constructor
        · simp only [List.length_cons]
          omega
        · intro g hg
          have hget : (e :: f2 :: t).getD (minIdx (f2 :: t) + 1) dflt
              = (f2 :: t).getD (minIdx (f2 :: t)) dflt := rfl
          rw [hget, hgd dflt]
          rcases List.mem_cons.mp hg with rfl | hg2
          · exact le_of_lt hc
          · rw [← hgd dflt]
            exact ihmin g hg2
      · rw [if_neg hc]
        refine ⟨by simp, ?_⟩
        intro g hg
        have hget : (e :: f2 :: t).getD 0 dflt = e := rfl
        rw [hget]
        rcases List.mem_cons.mp hg with rfl | hg2
        · exact le_refl _
        · have h2 : e.weight ≤ ((f2 :: t).getD (minIdx (f2 :: t)) f2).weight := not_lt.mp hc
          have h3 := ihmin g hg2
          have hgd : (f2 :: t).getD (minIdx (f2 :: t)) dflt
              = (f2 :: t).getD (minIdx (f2 :: t)) f2 := by
            rw [List.getD_eq_getElem (f2 :: t) dflt ihlt, List.getD_eq_getElem (f2 :: t) f2 ihlt]
          rw [hgd] at h3
          omega

theorem set_perm {rest : List Edge} {e : Edge} {k : Nat} (hk : k < rest.length) :
    (e :: rest).Perm (rest.getD k e :: rest.set k e) := by
  have hsplit : rest = rest.take k ++ rest.getD k e :: rest.drop (k + 1) := by
    rw [List.getD_eq_getElem rest e hk]
    conv_lhs => rw [← List.take_append_drop k rest]
    rw [List.drop_eq_getElem_cons hk]
  have hset : rest.set k e = rest.take k ++ e :: rest.drop (k + 1) := by
    rw [List.set_eq_take_append_cons_drop, if_pos hk]
  rw [hset]
  nth_rewrite 1 [hsplit]
  exact List.Perm.trans (List.Perm.cons e List.perm_middle)
    (List.Perm.trans (List.Perm.swap (rest.getD k e) e (rest.take k ++ rest.drop (k + 1)))
      (List.Perm.cons (rest.getD k e) List.perm_middle.symm))

theorem selSort_perm : ∀ (n : Nat) (l : List Edge), l.length ≤ n → (selSort l).Perm l := by
  intro n
  induction n with
  | zero =>
    intro l hlen
    rw [Nat.le_zero, List.length_eq_zero] at hlen
    subst hlen
    rw [selSort]
  | succ n ih =>
    intro l hlen
    cases l with
    | nil => rw [selSort]
    | cons e rest =>
      rw [selSort]
      by_cases hk : minIdx (e :: rest) = 0
      · rw [if_pos hk]
        exact List.Perm.cons e (ih rest
          (by simp only [List.length_cons] at hlen; omega))
      · rw [if_neg hk]
        obtain ⟨hlt, _⟩ := minIdx_spec (e :: rest) e (by simp)
        have hk1 : minIdx (e :: rest) - 1 < rest.length := by
          simp only [List.length_cons] at hlt
          omega
        have hp1 : (selSort (rest.set (minIdx (e :: rest) - 1) e)).Perm
            (rest.set (minIdx (e :: rest) - 1) e) := by
          apply ih
          rw [List.length_set]
          simp only [List.length_cons] at hlen
          omega
        exact List.Perm.trans (List.Perm.cons _ hp1) (set_perm hk1).symm

theorem selSort_sorted : ∀ (n : Nat) (l : List Edge), l.length ≤ n →
    List.Sorted (fun a b : Edge => a.weight ≤ b.weight) (selSort l) := by
  intro n
  induction n with
  | zero =>
    intro l hlen
    rw [Nat.le_zero, List.length_eq_zero] at hlen
    subst hlen
    rw [selSort]
    exact List.sorted_nil
  | succ n ih =>
    intro l hlen
    cases l with
    | nil =>
      rw [selSort]
      exact List.sorted_nil
    | cons e rest =>
      obtain ⟨hlt, hmin⟩ := minIdx_spec (e :: rest) e (by simp)
      rw [selSort]
      by_cases hk : minIdx (e :: rest) = 0
      · rw [if_pos hk]
        rw [List.sorted_cons]
        have hlen2 : rest.length ≤ n := by
          simp only [List.length_cons] at hlen
          omega
        refine ⟨?_, ih rest hlen2⟩
        intro b hb
        have hb2 : b ∈ e :: rest := List.mem_cons_of_mem e ((selSort_perm n rest hlen2).mem_iff.mp hb)
        have := hmin b hb2
        rw [hk] at this
        exact this
      · rw [if_neg hk]
        rw [List.sorted_cons]
        have hk1 : minIdx (e :: rest) - 1 < rest.length := by
          simp only [List.length_cons] at hlt
          omega
        have hlen2 : (rest.set (minIdx (e :: rest) - 1) e).length ≤ n := by
          rw [List.length_set]
          simp only [List.length_cons] at hlen
          omega
        refine ⟨?_, ih _ hlen2⟩
        intro b hb
        have hb2 : b ∈ rest.set (minIdx (e :: rest) - 1) e :=
          (selSort_perm n _ hlen2).mem_iff.mp hb
        have hb3 : b ∈ e :: rest := by
          rcases List.mem_or_eq_of_mem_set hb2 with h | rfl
          · exact List.mem_cons_of_mem e h
          · exact List.mem_cons_self _ _
        have h4 := hmin b hb3
        have hgd : (e :: rest).getD (minIdx (e :: rest)) e
            = rest.getD (minIdx (e :: rest) - 1) e := by
          obtain ⟨k, hkeq⟩ : ∃ k, minIdx (e :: rest) = k + 1 := ⟨minIdx (e :: rest) - 1, by omega⟩
          rw [hkeq]
          rfl
        rw [hgd] at h4
        exact h4

theorem mem_candidateEdges {D : Mat} {N : Nat} {e : Edge} :
    e ∈ candidateEdges D N ↔
      e.u < e.v ∧ e.v < N ∧ D e.u e.v ≠ 0 ∧ e.weight = D e.u e.v := by
  unfold candidateEdges
  rw [List.mem_flatten]
  constructor
  · rintro ⟨l, hl, hel⟩
    rcases List.mem_map.mp hl with ⟨i, hi, rfl⟩
    rcases List.mem_filterMap.mp hel with ⟨j, hj, hje⟩
    rw [List.mem_range'_1] at hj
    rw [List.mem_range] at hi
    by_cases hD : D i j ≠ 0
    · rw [if_pos hD] at hje
      injection hje with hje2
      subst hje2
      refine ⟨?_, ?_, hD, rfl⟩
      · show i < j
        omega
      · show j < N
        omega
    · rw [if_neg hD] at hje
      exact absurd hje (by simp)
  · rintro ⟨h1, h2, h3, h4⟩
    refine ⟨_, List.mem_map.mpr ⟨e.u, List.mem_range.mpr (lt_trans h1 h2), rfl⟩, ?_⟩
    apply List.mem_filterMap.mpr
    refine ⟨e.v, ?_, ?_⟩
    · rw [List.mem_range'_1]
      omega
    · rw [if_pos h3, ← h4]

theorem candidate_bounds {D : Mat} {N : Nat} {e : Edge} (h : e ∈ candidateEdges D N) :
    e.u < N ∧ e.v < N ∧ e.u ≠ e.v := by
  rcases mem_candidateEdges.mp h with ⟨h1, h2, _, _⟩
  exact ⟨lt_trans h1 h2, h2, by omega⟩

theorem weightSum_append {l1 l2 : List Edge} :
    weightSum (l1 ++ l2) = weightSum l1 + weightSum l2 := by
  unfold weightSum
  rw [List.map_append, List.sum_append]

theorem weightSum_perm {l1 l2 : List Edge} (h : l1.Perm l2) : weightSum l1 = weightSum l2 :=
  List.Perm.sum_eq (List.Perm.map _ h)

theorem weightSum_erase {l : List Edge} {f : Edge} (hf : f ∈ l) :
    weightSum l = f.weight + weightSum (l.erase f) := by
  have h := weightSum_perm (List.perm_cons_erase hf)
  rw [h]
  unfold weightSum
  rw [List.map_cons, List.sum_cons]

theorem sublist_weightSum_le {l1 l2 : List Edge} (h : l1.Sublist l2) :
    weightSum l1 ≤ weightSum l2 := by
  induction h with
  | slnil => exact le_refl _
  | cons e h2 ih =>
    unfold weightSum at ih ⊢
    rw [List.map_cons, List.sum_cons]
    omega
  | cons₂ e h2 ih =>
    unfold weightSum at ih ⊢
    rw [List.map_cons, List.sum_cons, List.map_cons, List.sum_cons]
    omega

theorem subset_weightSum_le {l1 l2 : List Edge} (hsub : l1 ⊆ l2) (hnd : l1.Nodup) :
    weightSum l1 ≤ weightSum l2 := by
  obtain ⟨l3, hp, hsl⟩ := hnd.subperm hsub
  rw [← weightSum_perm hp]
  exact sublist_weightSum_le hsl

/-- A minimum-weight spanning subset exists as soon as any spanning
subset does. -/
theorem min_spanning_sub_exists {D : Mat} {N : Nat}
    (h : ∃ T2, isSpanningSub D N T2) :
    ∃ T, isSpanningSub D N T ∧
      ∀ T2, isSpanningSub D N T2 → weightSum T ≤ weightSum T2 := by
  obtain ⟨T2, hT2⟩ := h
  have hne : {w : Nat | ∃ T, isSpanningSub D N T ∧ weightSum T = w}.Nonempty :=
    ⟨weightSum T2, T2, hT2, rfl⟩
  obtain ⟨T0, hT0, hw0⟩ := Nat.sInf_mem hne
  refine ⟨T0, hT0, ?_⟩
  intro T3 hT3
  rw [hw0]
  exact Nat.sInf_le ⟨T3, hT3, rfl⟩

/-- At an exit point of the loop, partition and root counting determine
whether the accepted edges span. -/
theorem exit_spans {par rank : Nat → Nat} {N : Nat} {res : List Edge}
    (h1 : 1 ≤ N) (hInv : RankInv par rank N)
    (hpart : ∀ u v, u < N → v < N → (rootOf par N u = rootOf par N v ↔ joined res u v))
    (hcard : ((Finset.range N).filter fun u => par u = u).card = N - res.length) :
    (res.length = N - 1 → spans res N) ∧ (spans res N → res.length = N - 1) := by
  constructor
  · intro hlen
    rw [hlen] at hcard
    have hcard1 : ((Finset.range N).filter fun u => par u = u).card = 1 := by omega
    obtain ⟨a, ha⟩ := Finset.card_eq_one.mp hcard1
    intro u hu v hv
    rw [← hpart u v hu hv]
    obtain ⟨ru, hru⟩ := Option.isSome_iff_exists.mp (rootOf_total hInv u hu)
    obtain ⟨rv, hrv⟩ := Option.isSome_iff_exists.mp (rootOf_total hInv v hv)
    have hrua : ru = a := by
      have hmem : ru ∈ (Finset.range N).filter fun u => par u = u :=
        Finset.mem_filter.mpr ⟨Finset.mem_range.mpr
          (rootOf_lt (fun w hw => (hInv w hw).1) hu hru), rootOf_isFix hru⟩
      rw [ha] at hmem
      exact Finset.mem_singleton.mp hmem
    have hrva : rv = a := by
      have hmem : rv ∈ (Finset.range N).filter fun u => par u = u :=
        Finset.mem_filter.mpr ⟨Finset.mem_range.mpr
          (rootOf_lt (fun w hw => (hInv w hw).1) hv hrv), rootOf_isFix hrv⟩
      rw [ha] at hmem
      exact Finset.mem_singleton.mp hmem
    rw [hru, hrv, hrua, hrva]
  · intro hspans
    obtain ⟨r0, hr0⟩ := Option.isSome_iff_exists.mp (rootOf_total hInv 0 (by omega))
    have hfix0 : par r0 = r0 := rootOf_isFix hr0
    have hr0N : r0 < N := rootOf_lt (fun w hw => (hInv w hw).1) (by omega) hr0
    have hsub : ((Finset.range N).filter fun u => par u = u) ⊆ {r0} := by
      intro x hx
      rcases Finset.mem_filter.mp hx with ⟨hx1, hx2⟩
      have hxN := Finset.mem_range.mp hx1
      have hjx : joined res x 0 := hspans x hxN 0 (by omega)
      have := (hpart x 0 hxN (by omega)).mpr hjx
      rw [rootOf_fix_self hx2 (by omega), hr0] at this
      injection this with h2
      rw [Finset.mem_singleton]
      exact h2
    have hmem0 : r0 ∈ (Finset.range N).filter fun u => par u = u :=
      Finset.mem_filter.mpr ⟨Finset.mem_range.mpr hr0N, hfix0⟩
    have heq : ((Finset.range N).filter fun u => par u = u) = {r0} :=
      Finset.Subset.antisymm hsub (Finset.singleton_subset_iff.mpr hmem0)
    rw [heq, Finset.card_singleton] at hcard
    omega

theorem merge_map_iff {cw cr a b su sv : Nat} (hsusv : su ≠ sv)
    (hcwcr : (cw = su ∧ cr = sv) ∨ (cw = sv ∧ cr = su)) :
    ((if a = cw then cr else a) = (if b = cw then cr else b)) ↔
      (a = b ∨ (a = su ∧ sv = b) ∨ (a = sv ∧ su = b)) := by
  rcases hcwcr with ⟨rfl, rfl⟩ | ⟨rfl, rfl⟩ <;>
    by_cases ha : a = cw <;> by_cases hb : b = cw <;>
      simp only [ha, hb, if_pos, if_neg, if_true, if_false, true_and, and_true,
        false_and, and_false, false_or, or_false, true_or, or_true, iff_true,
        true_iff] <;>
      omega

theorem kruskalLoop_spec {D : Mat} {N : Nat} (h1 : 1 ≤ N) :
    ∀ (rest : List Edge) (par rank : Nat → Nat) (res : List Edge),
      RankInv par rank N →
      (∀ u v, u < N → v < N → (rootOf par N u = rootOf par N v ↔ joined res u v)) →
      ((Finset.range N).filter fun u => par u = u).card = N - res.length →
      res.length ≤ N - 1 →
      (∀ e ∈ rest, e ∈ candidateEdges D N) →
      (∀ e ∈ res, e ∈ candidateEdges D N) →
      res.Nodup → acyclicE res →
      List.Sorted (fun a b : Edge => a.weight ≤ b.weight) rest →
      (∀ g ∈ candidateEdges D N, g ∈ rest ∨ joined res g.u g.v) →
      ((∃ T2, isSpanningSub D N T2) →
        ∃ T, isSpanningSub D N T ∧ (∀ e ∈ res, e ∈ T) ∧
          ∀ T2, isSpanningSub D N T2 → weightSum T ≤ weightSum T2) →
      ∃ res2, kruskalLoop N rest par rank res = some res2 ∧
        res2.Nodup ∧ acyclicE res2 ∧ (∀ e ∈ res2, e ∈ candidateEdges D N) ∧
        res2.length ≤ N - 1 ∧
        ((∃ T2, isSpanningSub D N T2) →
          ∃ T, isSpanningSub D N T ∧ (∀ e ∈ res2, e ∈ T) ∧
            ∀ T2, isSpanningSub D N T2 → weightSum T ≤ weightSum T2) ∧
        (res2.length = N - 1 → spans res2 N) ∧ (spans res2 N → res2.length = N - 1) ∧
        (res2.length = N - 1 ∨ ∀ g ∈ candidateEdges D N, joined res2 g.u g.v) := by
  intro rest
  induction rest with
  | nil =>
    intro par rank res hInv hpart hcard hlen hrest hres hnd hacy hsort hH3 hmin
    obtain ⟨hs1, hs2⟩ := exit_spans h1 hInv hpart hcard
    refine ⟨res, rfl, hnd, hacy, hres, hlen, hmin, hs1, hs2, Or.inr ?_⟩
    intro g hg
    rcases hH3 g hg with hgr | hj
    · exact absurd hgr (by simp)
    · exact hj
  | cons ed rest ih =>
    intro par rank res hInv hpart hcard hlen hrest hres hnd hacy hsort hH3 hmin
    by_cases hstop : res.length = N - 1
    · rw [kruskalLoop, if_pos hstop]
      obtain ⟨hs1, hs2⟩ := exit_spans h1 hInv hpart hcard
      exact ⟨res, rfl, hnd, hacy, hres, hlen, hmin, hs1, hs2, Or.inl hstop⟩
    · have hedC : ed ∈ candidateEdges D N := hrest ed (List.mem_cons_self _ _)
      obtain ⟨heduN, hedvN, hedne⟩ := candidate_bounds hedC
      obtain ⟨su, hsu⟩ := Option.isSome_iff_exists.mp (rootOf_total hInv ed.u heduN)
      obtain ⟨par1, hrun1, hchar1⟩ := findSetAux_spec hsu
      have hInv1 : RankInv par1 rank N := findSetAux_rankInv hInv hchar1
      have htrans1 : ∀ x, x < N → rootOf par1 N x = rootOf par N x := by
        intro x hx
        obtain ⟨s, hs⟩ := Option.isSome_iff_exists.mp (rootOf_total hInv x hx)
        rw [hs, findSetAux_root_preserved hchar1 hs]
      obtain ⟨sv, hsv1⟩ := Option.isSome_iff_exists.mp (rootOf_total hInv1 ed.v hedvN)
      obtain ⟨par2, hrun2, hchar2⟩ := findSetAux_spec hsv1
      have hInv2 : RankInv par2 rank N := findSetAux_rankInv hInv1 hchar2
      have htrans2 : ∀ x, x < N → rootOf par2 N x = rootOf par N x := by
        intro x hx
        obtain ⟨s, hs⟩ := Option.isSome_iff_exists.mp (rootOf_total hInv1 x hx)
        rw [findSetAux_root_preserved hchar2 hs, ← htrans1 x hx, hs]
      have hsv : rootOf par N ed.v = some sv := by
        rw [← htrans1 ed.v hedvN]
        exact hsv1
      have hpart2 : ∀ u v, u < N → v < N →
          (rootOf par2 N u = rootOf par2 N v ↔ joined res u v) := by
        intro u v hu hv
        rw [htrans2 u hu, htrans2 v hv]
        exact hpart u v hu hv
      have hfix2 : ∀ x, par2 x = x ↔ par x = x := by
        intro x
        rw [findSetAux_fix_iff hchar2 x, findSetAux_fix_iff hchar1 x]
      have hcard2 : ((Finset.range N).filter fun u => par2 u = u).card
          = N - res.length := by
        rw [← hcard]
        congr 1
        apply Finset.filter_congr
        intro x _
        exact hfix2 x
      have hcomp : kruskalLoop N (ed :: rest) par rank res
          = if su ≠ sv then
              kruskalLoop N rest (unionSets par2 rank su sv).1
                (unionSets par2 rank su sv).2 (res ++ [ed])
            else kruskalLoop N rest par2 rank res := by
        rw [kruskalLoop, if_neg hstop, hrun1]
        simp only [hrun2]
      rw [hcomp]
      by_cases hne : su ≠ sv
      · -- accept the edge
        rw [if_pos hne]
        have hnjoined : ¬ joined res ed.u ed.v := by
          intro hj
          have h2 := (hpart ed.u ed.v heduN hedvN).mpr hj
          rw [hsu, hsv] at h2
          injection h2 with h3
          exact hne h3
        have hsufix : par2 su = su := (hfix2 su).mpr (rootOf_isFix hsu)
        have hsvfix : par2 sv = sv := (hfix2 sv).mpr (rootOf_isFix hsv)
        have hsuN : su < N := rootOf_lt (fun w hw => (hInv w hw).1) heduN hsu
        have hsvN : sv < N := rootOf_lt (fun w hw => (hInv w hw).1) hedvN hsv
        obtain ⟨cw, cr, hcwcr, hpar3, hInv3⟩ :=
          unionSets_spec hInv2 hsufix hsvfix hne hsuN hsvN
        have hcwcr_ne : cw ≠ cr := by
          rcases hcwcr with ⟨rfl, rfl⟩ | ⟨rfl, rfl⟩
          · exact hne
          · exact Ne.symm hne
        have hcwfix : par2 cw = cw := by
          rcases hcwcr with ⟨rfl, _⟩ | ⟨rfl, _⟩
          · exact hsufix
          · exact hsvfix
        have hcrfix : par2 cr = cr := by
          rcases hcwcr with ⟨_, rfl⟩ | ⟨_, rfl⟩
          · exact hsvfix
          · exact hsufix
        have hcwN : cw < N := by
          rcases hcwcr with ⟨rfl, _⟩ | ⟨rfl, _⟩
          · exact hsuN
          · exact hsvN
        have hroot3 : ∀ x s, x < N → rootOf par2 N x = some s →
            rootOf (unionSets par2 rank su sv).1 N x
              = some (if s = cw then cr else s) := by
          intro x s hx hs
          have h2 := rootOf_update hpar3 hcwfix hcrfix hcwcr_ne hs
          obtain ⟨t, ht⟩ := Option.isSome_iff_exists.mp
            ((rootOf_total hInv3 x hx))
          have h3 := rootOf_unique ht h2
          rw [ht, h3]
        have hpart3 : ∀ u v, u < N → v < N →
            (rootOf (unionSets par2 rank su sv).1 N u
              = rootOf (unionSets par2 rank su sv).1 N v ↔
              joined (res ++ [ed]) u v) := by
          intro u v hu hv
          obtain ⟨ru, hru⟩ := Option.isSome_iff_exists.mp (rootOf_total hInv2 u hu)
          obtain ⟨rv, hrv⟩ := Option.isSome_iff_exists.mp (rootOf_total hInv2 v hv)
          rw [hroot3 u ru hu hru, hroot3 v rv hv hrv, Option.some_inj,
            merge_map_iff hne hcwcr, joined_append_single]
          have hconv : ∀ w rw2, w < N → rootOf par2 N w = some rw2 →
              ∀ w2 rw3, w2 < N → rootOf par2 N w2 = some rw3 →
              (joined res w w2 ↔ rw2 = rw3) := by
            intro w rw2 hw hrw w2 rw3 hw2 hrw2
            rw [← hpart2 w w2 hw hw2, hrw, hrw2, Option.some_inj]
          have hedu2 : rootOf par2 N ed.u = some su := by
            rw [htrans2 ed.u heduN]
            exact hsu
          have hedv2 : rootOf par2 N ed.v = some sv := by
            rw [htrans2 ed.v hedvN]
            exact hsv
          constructor
          · rintro (h2 | ⟨h2, h3⟩ | ⟨h2, h3⟩)
            · exact Or.inl ((hconv u ru hu hru v rv hv hrv).mpr h2)
            · exact Or.inr (Or.inl ⟨(hconv u ru hu hru ed.u su heduN hedu2).mpr h2,
                (hconv ed.v sv hedvN hedv2 v rv hv hrv).mpr h3⟩)
            · exact Or.inr (Or.inr ⟨(hconv u ru hu hru ed.v sv hedvN hedv2).mpr h2,
                (hconv ed.u su heduN hedu2 v rv hv hrv).mpr h3⟩)
          · rintro (h2 | ⟨h2, h3⟩ | ⟨h2, h3⟩)
            · exact Or.inl ((hconv u ru hu hru v rv hv hrv).mp h2)
            · exact Or.inr (Or.inl ⟨(hconv u ru hu hru ed.u su heduN hedu2).mp h2,
                (hconv ed.v sv hedvN hedv2 v rv hv hrv).mp h3⟩)
            · exact Or.inr (Or.inr ⟨(hconv u ru hu hru ed.v sv hedvN hedv2).mp h2,
                (hconv ed.u su heduN hedu2 v rv hv hrv).mp h3⟩)
        have hcard3 : ((Finset.range N).filter
              fun u => (unionSets par2 rank su sv).1 u = u).card
            = N - (res ++ [ed]).length := by
          have hfilter3 : ((Finset.range N).filter
                fun u => (unionSets par2 rank su sv).1 u = u)
              = ((Finset.range N).filter fun u => par2 u = u).erase cw := by
            ext x
            rw [Finset.mem_erase, Finset.mem_filter, Finset.mem_filter]
            constructor
            · rintro ⟨hx1, hx2⟩
              rw [hpar3 x] at hx2
              by_cases hxc : x = cw
              · rw [if_pos hxc] at hx2
                exact absurd (hx2.trans hxc).symm hcwcr_ne
              · rw [if_neg hxc] at hx2
                exact ⟨hxc, hx1, hx2⟩
            · rintro ⟨hxc, hx1, hx2⟩
              refine ⟨hx1, ?_⟩
              rw [hpar3 x, if_neg hxc]
              exact hx2
          have hcwmem : cw ∈ (Finset.range N).filter fun u => par2 u = u :=
            Finset.mem_filter.mpr ⟨Finset.mem_range.mpr hcwN, hcwfix⟩
          rw [hfilter3, Finset.card_erase_of_mem hcwmem, hcard2]
          simp only [List.length_append, List.length_cons, List.length_nil]
          omega
        have hednr : ed ∉ res := fun hmem => hnjoined (joined_of_mem hmem)
        have hlen3 : (res ++ [ed]).length ≤ N - 1 := by
          simp only [List.length_append, List.length_cons, List.length_nil]
          omega
        have hnd3 : (res ++ [ed]).Nodup := by
          rw [List.nodup_append]
          exact ⟨hnd, by simp, by simpa using hednr⟩
        have hacy3 : acyclicE (res ++ [ed]) := by
          intro e2 he2
          rcases List.mem_append.mp he2 with heres | heed
          · intro hj
            have herase : (res ++ [ed]).erase e2 = res.erase e2 ++ [ed] :=
              List.erase_append_left [ed] heres
            rw [herase] at hj
            have hsubE : ∀ g ∈ res.erase e2, g ∈ res :=
              fun g hg => List.mem_of_mem_erase hg
            rcases joined_append_single.mp hj with hj2 | ⟨hj1, hj2⟩ | ⟨hj1, hj2⟩
            · exact hacy e2 heres hj2
            · apply hnjoined
              exact Relation.ReflTransGen.trans (joined_symm (joined_mono hsubE hj1))
                (Relation.ReflTransGen.trans (joined_of_mem heres)
                  (joined_symm (joined_mono hsubE hj2)))
            · apply hnjoined
              exact Relation.ReflTransGen.trans (joined_mono hsubE hj2)
                (Relation.ReflTransGen.trans (joined_symm (joined_of_mem heres))
                  (joined_mono hsubE hj1))
          · have heq : ed = e2 := (List.mem_singleton.mp heed).symm
            subst heq
            intro hj
            have herase : (res ++ [ed]).erase ed = res := by
              rw [List.erase_append_right [ed] hednr, List.erase_cons_head]
              simp
            rw [herase] at hj
            exact hnjoined hj
        have hres3 : ∀ e ∈ res ++ [ed], e ∈ candidateEdges D N := by
          intro e he
          rcases List.mem_append.mp he with he | he
          · exact hres e he
          · rcases List.mem_singleton.mp he with rfl
            exact hedC
        have hH33 : ∀ g ∈ candidateEdges D N,
            g ∈ rest ∨ joined (res ++ [ed]) g.u g.v := by
          intro g hg
          rcases hH3 g hg with hgr | hj
          · rcases List.mem_cons.mp hgr with rfl | hgr2
            · exact Or.inr (joined_of_mem (List.mem_append.mpr (Or.inr (by simp))))
            · exact Or.inl hgr2
          · exact Or.inr (joined_mono (fun e2 he2 => List.mem_append.mpr (Or.inl he2)) hj)
        have hmin3 : (∃ T2, isSpanningSub D N T2) →
            ∃ T, isSpanningSub D N T ∧ (∀ e ∈ res ++ [ed], e ∈ T) ∧
              ∀ T2, isSpanningSub D N T2 → weightSum T ≤ weightSum T2 := by
          intro hex
          obtain ⟨T, hTsub, hTres, hTmin⟩ := hmin hex
          by_cases hedT : ed ∈ T
          · refine ⟨T, hTsub, ?_, hTmin⟩
            intro e he
            rcases List.mem_append.mp he with he | he
            · exact hTres e he
            · rcases List.mem_singleton.mp he with rfl
              exact hedT
          · obtain ⟨hTc, hTnd, hTspan⟩ := hTsub
            have hjT : joined T ed.u ed.v := hTspan ed.u heduN ed.v hedvN
            have hSv : ¬ joined res ed.v ed.u := fun h => hnjoined (joined_symm h)
            obtain ⟨f, a, b, hfT, hor, ha, hb, hja, hjb⟩ :=
              joined_crossing (S := fun x => joined res x ed.u) hjT
                Relation.ReflTransGen.refl hSv
            have habj : f ∈ res → joined res a b := by
              intro hfres
              rcases hor with ⟨hh1, hh2⟩ | ⟨hh1, hh2⟩
              · rw [← hh1, ← hh2]
                exact joined_of_mem hfres
              · rw [← hh2, ← hh1]
                exact joined_symm (joined_of_mem hfres)
            have hfnr : f ∉ res := by
              intro hfres
              exact hb (Relation.ReflTransGen.trans (joined_symm (habj hfres)) ha)
            have hfC : f ∈ candidateEdges D N := hTc hfT
            have hfrest : f ∈ ed :: rest := by
              rcases hH3 f hfC with h2 | h2
              · exact h2
              · exfalso
                apply hb
                have hab : joined res a b := by
                  rcases hor with ⟨hh1, hh2⟩ | ⟨hh1, hh2⟩
                  · rw [← hh1, ← hh2]
                    exact h2
                  · rw [← hh2, ← hh1]
                    exact joined_symm h2
                exact Relation.ReflTransGen.trans (joined_symm hab) ha
            have hfne : f ≠ ed := fun h2 => hedT (h2 ▸ hfT)
            have hfrest2 : f ∈ rest := by
              rcases List.mem_cons.mp hfrest with h2 | h2
              · exact absurd h2 hfne
              · exact h2
            have hwle : ed.weight ≤ f.weight := (List.sorted_cons.mp hsort).1 f hfrest2
            have hsubTT : ∀ g ∈ T.erase f, g ∈ T.erase f ++ [ed] :=
              fun g hg => List.mem_append.mpr (Or.inl hg)
            have hedT2 : ed ∈ T.erase f ++ [ed] := List.mem_append.mpr (Or.inr (by simp))
            have hchainab : joined (T.erase f ++ [ed]) a b :=
              Relation.ReflTransGen.trans (joined_symm (joined_mono hsubTT hja))
                (Relation.ReflTransGen.trans (joined_of_mem hedT2)
                  (joined_symm (joined_mono hsubTT hjb)))
            refine ⟨T.erase f ++ [ed], ⟨?_, ?_, ?_⟩, ?_, ?_⟩
            · intro g hg
              rcases List.mem_append.mp hg with hg | hg
              · exact hTc (List.mem_of_mem_erase hg)
              · rcases List.mem_singleton.mp hg with rfl
                exact hedC
            · rw [List.nodup_append]
              refine ⟨hTnd.erase f, by simp, ?_⟩
              intro x hx hx2
              rcases List.mem_singleton.mp hx2 with rfl
              exact hedT (List.mem_of_mem_erase hx)
            · intro x hx y hy
              apply joined_subst (f := f) ?_ ?_ (hTspan x hx y hy)
              · intro g hg
                by_cases hgf : g = f
                · exact Or.inr hgf
                · exact Or.inl (List.mem_append.mpr
                    (Or.inl ((List.mem_erase_of_ne hgf).mpr hg)))
              · rcases hor with ⟨hh1, hh2⟩ | ⟨hh1, hh2⟩
                · rw [hh1, hh2]
                  exact hchainab
                · rw [hh1, hh2]
                  exact joined_symm hchainab
            · intro e he
              rcases List.mem_append.mp he with he | he
              · apply List.mem_append.mpr
                left
                have hef : e ≠ f := by
                  intro rfl2
                  subst rfl2
                  exact hfnr he
                exact (List.mem_erase_of_ne hef).mpr (hTres e he)
              · rcases List.mem_singleton.mp he with rfl
                exact hedT2
            · intro T2 hT2
              have hw : weightSum (T.erase f ++ [ed]) ≤ weightSum T := by
                rw [weightSum_append]
                have h2 := weightSum_erase hfT
                have h3 : weightSum [ed] = ed.weight := by
                  simp [weightSum]
                rw [h3]
                omega
              exact le_trans hw (hTmin T2 hT2)
        exact ih (unionSets par2 rank su sv).1 (unionSets par2 rank su sv).2
          (res ++ [ed]) hInv3 hpart3 hcard3 hlen3
          (fun e he => hrest e (List.mem_cons_of_mem _ he)) hres3 hnd3 hacy3
          (List.sorted_cons.mp hsort).2 hH33 hmin3
      · -- reject the edge
        rw [if_neg hne]
        push_neg at hne
        have hjoined : joined res ed.u ed.v := by
          apply (hpart ed.u ed.v heduN hedvN).mp
          rw [hsu, hsv, hne]
        apply ih par2 rank res hInv2 hpart2 hcard2 hlen
          (fun e he => hrest e (List.mem_cons_of_mem _ he)) hres hnd hacy
          (List.sorted_cons.mp hsort).2 ?_ hmin
        intro g hg
        rcases hH3 g hg with hgr | hj
        · rcases List.mem_cons.mp hgr with rfl | hgr2
          · exact Or.inr hjoined
          · exact Or.inl hgr2
        · exact Or.inr hj

/-! ### The builder run from the initial identity forest -/

theorem rootOf_id {N u : Nat} (h1 : 1 ≤ N) : rootOf (fun i => i) N u = some u := by
  cases N with
  | zero => omega
  | succ m => simp [rootOf]

/-- The acceptance loop started from the identity forest on the sorted
candidates: package of every loop invariant at exit. -/
theorem kruskal_main_spec {D : Mat} {N : Nat} (h1 : 1 ≤ N) :
    ∃ res2, kruskalLoop N (selSort (candidateEdges D N)) (fun i => i) (fun _ => 0) []
        = some res2 ∧
      res2.Nodup ∧ acyclicE res2 ∧ (∀ e ∈ res2, e ∈ candidateEdges D N) ∧
      res2.length ≤ N - 1 ∧
      ((∃ T2, isSpanningSub D N T2) →
        ∃ T, isSpanningSub D N T ∧ (∀ e ∈ res2, e ∈ T) ∧
          ∀ T2, isSpanningSub D N T2 → weightSum T ≤ weightSum T2) ∧
      (res2.length = N - 1 → spans res2 N) ∧ (spans res2 N → res2.length = N - 1) ∧
      (res2.length = N - 1 ∨ ∀ g ∈ candidateEdges D N, joined res2 g.u g.v) := by
  have hsel := selSort_perm (candidateEdges D N).length (candidateEdges D N) (le_refl _)
  apply kruskalLoop_spec h1 (selSort (candidateEdges D N)) (fun i => i) (fun _ => 0) []
  · intro u hu
    exact ⟨hu, fun h => absurd rfl h⟩
  · intro u v hu hv
    rw [rootOf_id h1, rootOf_id h1, Option.some_inj]
    exact joined_nil_iff.symm
  · have hall : ((Finset.range N).filter fun u => (fun i : Nat => i) u = u)
        = Finset.range N := by
      apply Finset.filter_true_of_mem
      intro x _
      rfl
    rw [hall, Finset.card_range]
    simp
  · simp
  · intro e he
    exact hsel.mem_iff.mp he
  · intro e he
    exact absurd he (List.not_mem_nil e)
  · exact List.nodup_nil
  · intro e he
    exact absurd he (List.not_mem_nil e)
  · exact selSort_sorted (candidateEdges D N).length (candidateEdges D N) (le_refl _)
  · intro g hg
    exact Or.inl (hsel.mem_iff.mpr hg)
  · intro hex
    obtain ⟨T, hT, hTmin⟩ := min_spanning_sub_exists hex
    exact ⟨T, hT, fun e he => absurd he (List.not_mem_nil e), hTmin⟩

/-- Case analysis of the whole Spanning Tree Builder: a connected candidate
graph with at least two nodes yields a minimum spanning tree, and one node
or a disconnected candidate graph yields an error. -/
theorem buildMST_cases {D : Mat} {N : Nat} (h1 : 1 ≤ N) :
    ∃ r, buildMinimumSpanningTree D N = some r ∧
      ((2 ≤ N ∧ spans (candidateEdges D N) N) →
        ∃ res, r = Except.ok res ∧ res.length = N - 1 ∧ res.Nodup ∧ acyclicE res ∧
          spans res N ∧ (∀ e ∈ res, e ∈ candidateEdges D N) ∧
          ∀ T, isSpanningSub D N T → weightSum res ≤ weightSum T) ∧
      ((N = 1 ∨ ¬ spans (candidateEdges D N) N) → ∃ msg, r = Except.error msg) := by
  by_cases hc0 : (candidateEdges D N).length = 0
  · have heq : buildMinimumSpanningTree D N = some (Except.error
        "No edges found in the distance matrix. The graph is disconnected.") := by
      rw [buildMinimumSpanningTree, if_pos hc0]
    refine ⟨_, heq, ?_, fun _ => ⟨_, rfl⟩⟩
    rintro ⟨h2, hspan⟩
    exfalso
    have hnil : candidateEdges D N = [] := List.length_eq_zero.mp hc0
    have hj : joined (candidateEdges D N) 0 1 := hspan 0 (by omega) 1 (by omega)
    rw [hnil, joined_nil_iff] at hj
    omega
  · obtain ⟨res2, hrun, hnd, hacy, hsub, hlen, hminext, hs1, hs2, hdisj⟩ :=
      kruskal_main_spec (D := D) h1
    by_cases hlenres : res2.length = N - 1
    · have heq : buildMinimumSpanningTree D N = some (Except.ok res2) := by
        rw [buildMinimumSpanningTree, if_neg hc0]
        simp only [hrun]
        rw [if_pos hlenres]
      refine ⟨_, heq, ?_, ?_⟩
      · rintro ⟨h2, hspan⟩
        have hspanres := hs1 hlenres
        have hT2 : ∃ T2, isSpanningSub D N T2 :=
          ⟨(candidateEdges D N).dedup, fun e he => List.mem_dedup.mp he,
            List.nodup_dedup _,
            fun a ha b hb =>
              joined_mono (fun e he => List.mem_dedup.mpr he) (hspan a ha b hb)⟩
        obtain ⟨T, hT, hresT, hTmin⟩ := hminext hT2
        refine ⟨res2, rfl, hlenres, hnd, hacy, hspanres, hsub, ?_⟩
        intro T3 hT3
        calc weightSum res2 ≤ weightSum T := subset_weightSum_le hresT hnd
          _ ≤ weightSum T3 := hTmin T3 hT3
      · rintro (h2 | hnspan)
        · exfalso
          apply hc0
          rw [List.length_eq_zero, List.eq_nil_iff_forall_not_mem]
          intro e he
          have := mem_candidateEdges.mp he
          omega
        · exfalso
          apply hnspan
          intro a ha b hb
          exact joined_mono hsub (hs1 hlenres a ha b hb)
    · have heq : buildMinimumSpanningTree D N = some (Except.error
          "The graph is disconnected; cannot form a spanning tree.") := by
        rw [buildMinimumSpanningTree, if_neg hc0]
        simp only [hrun]
        rw [if_neg hlenres]
      refine ⟨_, heq, ?_, fun _ => ⟨_, rfl⟩⟩
      rintro ⟨h2, hspan⟩
      exfalso
      rcases hdisj with h | hall
      · exact hlenres h
      · have hspanres : spans res2 N := fun a ha b hb =>
          joined_lift hall (hspan a ha b hb)
        exact hlenres (hs2 hspanres)

/-- C3 counterexample: with a single node the nonzero-distance candidates
(vacuously) connect all `N = 1` nodes, yet the Spanning Tree Builder does
not return `N - 1 = 0` edges: the `edgeCount == 0` guard of line 417 throws
first. -/
theorem mst_claim_fails_one_node :
    spans (candidateEdges (fun _ _ => 0) 1) 1 ∧
    ∀ res, buildMinimumSpanningTree (fun _ _ => 0) 1 ≠ some (Except.ok res) := by
  constructor
  · intro a ha b hb
    have ha0 : a = 0 := by omega
    have hb0 : b = 0 := by omega
    rw [ha0, hb0]
    exact Relation.ReflTransGen.refl
  · intro res h
    have heval : buildMinimumSpanningTree (fun _ _ => 0) 1 = some (Except.error
        "No edges found in the distance matrix. The graph is disconnected.") := rfl
    rw [heval] at h
    simp at h

/-- C3 (amended with `2 ≤ N`): when the nonzero-distance candidates connect
all of at least two nodes, the Spanning Tree Builder returns exactly `N-1`
candidate edges forming an acyclic spanning set of total weight at most that
of every spanning tree of the candidate graph; the candidates are exactly
the pairs `i < j` with `D i j ≠ 0`. -/
theorem mst_minimum_spanning_tree {D : Mat} {N : Nat} (h2 : 2 ≤ N)
    (hspan : spans (candidateEdges D N) N) :
    (∃ res, buildMinimumSpanningTree D N = some (Except.ok res) ∧
      res.length = N - 1 ∧ acyclicE res ∧ spans res N ∧
      (∀ e ∈ res, e ∈ candidateEdges D N) ∧
      ∀ T, isSpanningTree D N T → weightSum res ≤ weightSum T) ∧
    ∀ e, e ∈ candidateEdges D N ↔
      (e.u < e.v ∧ e.v < N ∧ D e.u e.v ≠ 0 ∧ e.weight = D e.u e.v) := by
  obtain ⟨r, heq, hok, _⟩ := buildMST_cases (D := D) (N := N) (by omega)
  obtain ⟨res, rfl, hlen, hnd, hacy, hsp, hsub, hmin⟩ := hok ⟨h2, hspan⟩
  refine ⟨⟨res, heq, hlen, hacy, hsp, hsub, ?_⟩, fun e => mem_candidateEdges⟩
  intro T hT
  exact hmin T ⟨hT.1, hT.2.1, hT.2.2.2⟩

/-- Witness for the amended C3 at the concrete two-node matrix `exDM2`. -/
theorem mst_minimum_spanning_tree_witness :
    (∃ res, buildMinimumSpanningTree exDM2 2 = some (Except.ok res) ∧
      res.length = 2 - 1 ∧ acyclicE res ∧ spans res 2 ∧
      (∀ e ∈ res, e ∈ candidateEdges exDM2 2) ∧
      ∀ T, isSpanningTree exDM2 2 T → weightSum res ≤ weightSum T) ∧
    ∀ e, e ∈ candidateEdges exDM2 2 ↔
      (e.u < e.v ∧ e.v < 2 ∧ exDM2 e.u e.v ≠ 0 ∧ e.weight = exDM2 e.u e.v) :=
  mst_minimum_spanning_tree (by decide) (by
    intro a ha b hb
    have hmem : (⟨0, 1, 7⟩ : Edge) ∈ candidateEdges exDM2 2 := by decide
    interval_cases a <;> interval_cases b
    · exact Relation.ReflTransGen.refl
    · exact joined_of_mem hmem
    · exact joined_symm (joined_of_mem hmem)
    · exact Relation.ReflTransGen.refl)

/-- C7 counterexample: for the valid one-node input the builder does not
succeed with the empty edge set; it throws `No edges found`. -/
theorem mst_one_node_throws :
    ∃ msg, buildMinimumSpanningTree (fun _ _ => 5) 1 = some (Except.error msg) ∧
      ∀ res, buildMinimumSpanningTree (fun _ _ => 5) 1 ≠ some (Except.ok res) := by
  refine ⟨"No edges found in the distance matrix. The graph is disconnected.",
    rfl, ?_⟩
  intro res h
  have heval : buildMinimumSpanningTree (fun _ _ => 5) 1 = some (Except.error
      "No edges found in the distance matrix. The graph is disconnected.") := rfl
  rw [heval] at h
  simp at h

/-- C7 (amended to `2 ≤ N`): the builder signals Disconnected exactly when
the nonzero-distance candidates fail to connect all nodes — equivalently,
when fewer than `N-1` independent edges exist among them; the claim's
`N = 1` clause is refuted separately. -/
theorem mst_error_iff_disconnected {D : Mat} {N : Nat} (h2 : 2 ≤ N) :
    ∃ r, buildMinimumSpanningTree D N = some r ∧
      ((∃ msg, r = Except.error msg) ↔ ¬ spans (candidateEdges D N) N) := by
  obtain ⟨r, heq, hok, herr⟩ := buildMST_cases (D := D) (N := N) (by omega)
  refine ⟨r, heq, ?_, ?_⟩
  · rintro ⟨msg, rfl⟩ hspan
    obtain ⟨res, hres, _⟩ := hok ⟨h2, hspan⟩
    simp at hres
  · intro hnspan
    exact herr (Or.inr hnspan)

/-- Witness for the amended C7 at a concrete disconnected two-node input. -/
theorem mst_error_iff_disconnected_witness :
    ∃ r, buildMinimumSpanningTree (fun _ _ => 0) 2 = some r ∧
      ((∃ msg, r = Except.error msg) ↔
        ¬ spans (candidateEdges (fun _ _ => 0) 2) 2) :=
  mst_error_iff_disconnected (by decide)

/-- C6 counterexample: the selection sort is not stable.  In `exD3mst` the
candidates are enumerated as `(0,1)`, `(0,2)`, `(1,2)`; the first two tie at
weight `2`, yet after sorting `(0,2)` precedes `(0,1)` — the swap that moves
the minimum to the front reverses the tied pair. -/
theorem selSort_not_stable :
    candidateEdges exD3mst 3 = [⟨0, 1, 2⟩, ⟨0, 2, 2⟩, ⟨1, 2, 1⟩] ∧
    selSort (candidateEdges exD3mst 3) = [⟨1, 2, 1⟩, ⟨0, 2, 2⟩, ⟨0, 1, 2⟩] := by
  have h1 : candidateEdges exD3mst 3 = [⟨0, 1, 2⟩, ⟨0, 2, 2⟩, ⟨1, 2, 1⟩] := by rfl
  refine ⟨h1, ?_⟩
  rw [h1]
  rw [selSort, selSort, selSort, selSort]
  norm_num [minIdx]
  rw [selSort, selSort, selSort]
  norm_num [minIdx]

/-- C6 (amended): the sorting step orders the candidate edges by ascending
weight and produces a permutation of the enumerated candidates — the output
is deterministic — but ties are not kept in enumeration order (see the
counterexample). -/
theorem selSort_sorts_candidates (D : Mat) (N : Nat) :
    List.Sorted (fun a b : Edge => a.weight ≤ b.weight)
      (selSort (candidateEdges D N)) ∧
    (selSort (candidateEdges D N)).Perm (candidateEdges D N) :=
  ⟨selSort_sorted (candidateEdges D N).length (candidateEdges D N) (le_refl _),
    selSort_perm (candidateEdges D N).length (candidateEdges D N) (le_refl _)⟩

/-- Effect of one neighbor scan on the BFS invariants. -/
theorem bfsScan_spec {r : Nat → Nat → Int} {N s t u : Nat} :
    ∀ (vs : List Nat) (vis : Nat → Bool) (par rk : Nat → Nat) (q : List Nat) (B : Nat),
      vis u = true →
      ParOk r N s vis par rk →
      (∀ v, vis v = true → rk v < B) →
      B ≤ ((Finset.range N).filter fun x => vis x = true).card →
      (∀ x ∈ q, vis x = true) →
      (∀ v ∈ vs, v < N) →
      vis s = true →
      ∃ found vis2 par2 q2 rk2 B2,
        bfsScan r t u vs vis par q = (found, vis2, par2, q2) ∧
        (∀ x, vis x = true → vis2 x = true) ∧
        ParOk r N s vis2 par2 rk2 ∧
        (∀ v, vis2 v = true → rk2 v < B2) ∧
        B2 ≤ ((Finset.range N).filter fun x => vis2 x = true).card ∧
        (∀ x ∈ q2, vis2 x = true) ∧
        (∀ x ∈ q, x ∈ q2) ∧
        q2.length + B = q.length + B2 ∧ B ≤ B2 ∧
        (found = true → vis2 t = true ∧ t ≠ s) ∧
        (found = false → (∀ v ∈ vs, 0 < r u v → vis2 v = true) ∧
          (∀ x, vis2 x = true → vis x = true ∨ x ∈ q2) ∧
          (vis t = false → vis2 t = false)) := by
  intro vs
  induction vs with
  | nil =>
    intro vis par rk q B hu hP hB hcard hq hvs hs
    refine ⟨false, vis, par, q, rk, B, rfl, fun x h => h, hP, hB, hcard, hq,
      fun x h => h, rfl, le_refl _, fun h => absurd h (by simp), ?_⟩
    intro _
    exact ⟨fun v hv => absurd hv (List.not_mem_nil v), fun x h => Or.inl h, fun h => h⟩
  | cons v vs ih =>
    intro vis par rk q B hu hP hB hcard hq hvs hs
    by_cases hv : vis v = true
    · have hred : bfsScan r t u (v :: vs) vis par q = bfsScan r t u vs vis par q := by
        rw [bfsScan, if_pos hv]
      obtain ⟨found, vis2, par2, q2, rk2, B2, heq, hmono, hP2, hB2, hcard2, hq2,
        hqsub, hlen, hBle, htrue, hfalse⟩ :=
        ih vis par rk q B hu hP hB hcard hq (fun x hx => hvs x (List.mem_cons_of_mem _ hx)) hs
      refine ⟨found, vis2, par2, q2, rk2, B2, hred.trans heq, hmono, hP2, hB2,
        hcard2, hq2, hqsub, hlen, hBle, htrue, ?_⟩
      intro hf
      obtain ⟨hall, hnew, ht⟩ := hfalse hf
      refine ⟨?_, hnew, ht⟩
      intro v2 hv2 hr2
      rcases List.mem_cons.mp hv2 with rfl | hv2
      · exact hmono v2 hv
      · exact hall v2 hv2 hr2
    · have hvN : v < N := hvs v (List.mem_cons_self _ _)
      have hvns : v ≠ s := fun h => hv (h ▸ hs)
      by_cases hr : 0 < r u v
      · have huv : u ≠ v := fun h => hv (h ▸ hu)
        -- invariants for the updated state
        have hmono1 : ∀ x, vis x = true → (fun x => if x = v then true else vis x) x = true := by
          intro x hx
          by_cases hxv : x = v
          · simp [hxv]
          · simpa [hxv] using hx
        have hP1 : ParOk r N s (fun x => if x = v then true else vis x)
            (fun x => if x = v then u else par x) (fun x => if x = v then B else rk x) := by
          intro x hx
          by_cases hxv : x = v
          · subst hxv
            refine ⟨hvN, fun _ => ⟨?_, ?_, ?_⟩⟩
            · simpa [huv] using hmono1 u hu
            · simpa [huv] using hB u hu
            · simpa [huv] using hr
          · have hx2 : vis x = true := by simpa [hxv] using hx
            obtain ⟨hxN, hrest⟩ := hP x hx2
            refine ⟨hxN, fun hxs => ?_⟩
            obtain ⟨hp1, hp2, hp3⟩ := hrest hxs
            have hpxv : par x ≠ v := fun h => hv (h ▸ hp1)
            refine ⟨?_, ?_, ?_⟩
            · simpa [hxv, hpxv] using hp1
            · simpa [hxv, hpxv] using hp2
            · simpa [hxv, hpxv] using hp3
        have hB1 : ∀ w, (fun x => if x = v then true else vis x) w = true →
            (fun x => if x = v then B else rk x) w < B + 1 := by
          intro w hw
          by_cases hwv : w = v
          · subst hwv
            show (if w = w then B else rk w) < B + 1
            rw [if_pos rfl]
            omega
          · have hw2 : vis w = true := by simpa [hwv] using hw
            show (if w = v then B else rk w) < B + 1
            rw [if_neg hwv]
            exact Nat.lt_succ_of_lt (hB w hw2)
        have hcard1 : B + 1 ≤ ((Finset.range N).filter
            fun x => (fun x => if x = v then true else vis x) x = true).card := by
          have hins : ((Finset.range N).filter
              fun x => (fun x => if x = v then true else vis x) x = true)
              = insert v ((Finset.range N).filter fun x => vis x = true) := by
            ext x
            simp only [Finset.mem_filter, Finset.mem_insert, Finset.mem_range]
            by_cases hxv : x = v
            · subst hxv
              simp [hvN]
            · simp [hxv]
          rw [hins, Finset.card_insert_of_not_mem (by simp [hv])]
          omega
        have hq1 : ∀ x ∈ q ++ [v], (fun x => if x = v then true else vis x) x = true := by
          intro x hx
          rcases List.mem_append.mp hx with hx | hx
          · exact hmono1 x (hq x hx)
          · rcases List.mem_singleton.mp hx with rfl
            simp
        by_cases hvt : v = t
        · subst hvt
          refine ⟨true, _, _, q ++ [v], fun x => if x = v then B else rk x, B + 1, ?_,
            hmono1, hP1, hB1, hcard1, hq1,
            fun x hx => List.mem_append.mpr (Or.inl hx),
            by simp only [List.length_append, List.length_cons, List.length_nil]; omega,
            Nat.le_succ B,
            fun _ => ⟨by simp, hvns⟩, fun h => absurd h (by simp)⟩
          rw [bfsScan]
          rw [if_neg (by simp [hv]), if_pos hr, if_pos rfl]
        · have hred : bfsScan r t u (v :: vs) vis par q
              = bfsScan r t u vs (fun x => if x = v then true else vis x)
                (fun x => if x = v then u else par x) (q ++ [v]) := by
            rw [bfsScan]
            rw [if_neg (by simp [hv]), if_pos hr, if_neg hvt]
          obtain ⟨found, vis2, par2, q2, rk2, B2, heq, hmono, hP2, hB2, hcard2, hq2,
            hqsub, hlen, hBle, htrue, hfalse⟩ :=
            ih (fun x => if x = v then true else vis x)
              (fun x => if x = v then u else par x)
              (fun x => if x = v then B else rk x) (q ++ [v]) (B + 1)
              (hmono1 u hu) hP1 hB1 hcard1 hq1
              (fun x hx => hvs x (List.mem_cons_of_mem _ hx)) (hmono1 s hs)
          refine ⟨found, vis2, par2, q2, rk2, B2, hred.trans heq,
            fun x hx => hmono x (hmono1 x hx), hP2, hB2, hcard2, hq2, ?_, ?_, ?_,
            htrue, ?_⟩
          · intro x hx
            exact hqsub x (List.mem_append.mpr (Or.inl hx))
          · rw [List.length_append, List.length_singleton] at hlen
            omega
          · omega
          · intro hf
            obtain ⟨hall, hnew, ht⟩ := hfalse hf
            refine ⟨?_, ?_, ?_⟩
            · intro v2 hv2 hr2
              rcases List.mem_cons.mp hv2 with rfl | hv2
              · exact hmono v2 (by simp)
              · exact hall v2 hv2 hr2
            · intro x hx
              rcases hnew x hx with hx2 | hx2
              · by_cases hxv : x = v
                · subst hxv
                  exact Or.inr (hqsub x (List.mem_append.mpr (Or.inr (by simp))))
                · have hx3 : vis x = true := by simpa [hxv] using hx2
                  exact Or.inl hx3
              · exact Or.inr hx2
            · intro htf
              apply ht
              show (if t = v then true else vis t) = false
              rw [if_neg (fun h : t = v => hvt h.symm)]
              exact htf
      · have hred : bfsScan r t u (v :: vs) vis par q = bfsScan r t u vs vis par q := by
          rw [bfsScan]
          rw [if_neg (by simp [hv]), if_neg hr]
        obtain ⟨found, vis2, par2, q2, rk2, B2, heq, hmono, hP2, hB2, hcard2, hq2,
          hqsub, hlen, hBle, htrue, hfalse⟩ :=
          ih vis par rk q B hu hP hB hcard hq
            (fun x hx => hvs x (List.mem_cons_of_mem _ hx)) hs
        refine ⟨found, vis2, par2, q2, rk2, B2, hred.trans heq, hmono, hP2, hB2,
          hcard2, hq2, hqsub, hlen, hBle, htrue, ?_⟩
        intro hf
        obtain ⟨hall, hnew, ht⟩ := hfalse hf
        refine ⟨?_, hnew, ht⟩
        intro v2 hv2 hr2
        rcases List.mem_cons.mp hv2 with rfl | hv2
        · exact absurd hr2 hr
        · exact hall v2 hv2 hr2

/-- The BFS queue loop terminates within its fuel and its result carries
either a well-formed parent tree reaching the sink or a residual-closed
visited set avoiding the sink. -/
theorem bfsLoop_spec {r : Nat → Nat → Int} {N s t : Nat} :
    ∀ (fuel : Nat) (q : List Nat) (vis : Nat → Bool) (par rk : Nat → Nat) (B : Nat),
      ParOk r N s vis par rk →
      (∀ v, vis v = true → rk v < B) →
      B ≤ ((Finset.range N).filter fun x => vis x = true).card →
      (∀ x ∈ q, vis x = true) →
      vis s = true →
      (∀ x, vis x = true → x ∈ q ∨ ∀ v, v < N → 0 < r x v → vis v = true) →
      (t ≠ s → vis t = false) →
      q.length + (N - B) < fuel →
      ∃ found parOut,
        bfsLoop r N t fuel q vis par = some (found, parOut) ∧
        (found = true → t ≠ s ∧ ∃ (vis2 : Nat → Bool) (rk2 : Nat → Nat),
          ParOk r N s vis2 parOut rk2 ∧
          (∀ v, vis2 v = true → rk2 v < N) ∧ vis2 t = true) ∧
        (found = false → ∃ vis2 : Nat → Bool, (∀ x, vis x = true → vis2 x = true) ∧
          (∀ x, vis2 x = true → x < N) ∧
          (∀ x v, vis2 x = true → v < N → 0 < r x v → vis2 v = true) ∧
          (t ≠ s → vis2 t = false)) := by
  intro fuel
  induction fuel with
  | zero =>
    intro q vis par rk B hP hB hcard hq hs hclosed htv hfuel
    omega
  | succ fuel ih =>
    intro q vis par rk B hP hB hcard hq hs hclosed htv hfuel
    match q with
    | [] =>
      refine ⟨false, par, rfl, fun h => absurd h (by simp), fun _ => ?_⟩
      refine ⟨vis, fun x h => h, fun x hx => (hP x hx).1, ?_, htv⟩
      intro x v hx hv hr2
      rcases hclosed x hx with hmem | hcl
      · exact absurd hmem (List.not_mem_nil x)
      · exact hcl v hv hr2
    | u :: q2 =>
      have hBN : B ≤ N := le_trans hcard (le_trans (Finset.card_filter_le _ _)
        (le_of_eq (Finset.card_range N)))
      have hu : vis u = true := hq u (List.mem_cons_self _ _)
      obtain ⟨found, vis2, par2, q3, rk2, B2, hscan, hmono, hP2, hB2, hcard2, hq2,
        hqsub, hlen, hBle, htrue, hfalse⟩ :=
        bfsScan_spec (List.range N) vis par rk q2 B hu hP hB hcard
          (fun x hx => hq x (List.mem_cons_of_mem _ hx))
          (fun v hv => List.mem_range.mp hv) hs
      have hB2N : B2 ≤ N := le_trans hcard2 (le_trans (Finset.card_filter_le _ _)
        (le_of_eq (Finset.card_range N)))
      cases found with
      | true =>
        refine ⟨true, par2, ?_, ?_, fun h => absurd h (by simp)⟩
        · rw [bfsLoop]
          rw [hscan]
        · intro _
          obtain ⟨hvt2, hts⟩ := htrue rfl
          exact ⟨hts, vis2, rk2, hP2, fun v hv => lt_of_lt_of_le (hB2 v hv) hB2N, hvt2⟩
      | false =>
        obtain ⟨hall, hnew, htpres⟩ := hfalse rfl
        have hred : bfsLoop r N t (fuel + 1) (u :: q2) vis par
            = bfsLoop r N t fuel q3 vis2 par2 := by
          rw [bfsLoop]
          rw [hscan]
        have hclosed2 : ∀ x, vis2 x = true →
            x ∈ q3 ∨ ∀ v, v < N → 0 < r x v → vis2 v = true := by
          intro x hx
          rcases hnew x hx with hx2 | hx2
          · rcases hclosed x hx2 with hmem | hcl
            · rcases List.mem_cons.mp hmem with rfl | hmem2
              · exact Or.inr fun v hv hr2 => hall v (List.mem_range.mpr hv) hr2
              · exact Or.inl (hqsub x hmem2)
            · exact Or.inr fun v hv hr2 => hmono v (hcl v hv hr2)
          · exact Or.inl hx2
        have hfuel2 : q3.length + (N - B2) < fuel := by
          simp only [List.length_cons] at hfuel
          omega
        obtain ⟨found2, parOut, heq2, ht2, hf2⟩ :=
          ih q3 vis2 par2 rk2 B2 hP2 hB2 hcard2 hq2 (hmono s hs) hclosed2
            (fun hts => htpres (htv hts)) hfuel2
        refine ⟨found2, parOut, hred.trans heq2, ht2, ?_⟩
        intro hf
        obtain ⟨vis3, hmono3, hlt3, hcl3, ht3⟩ := hf2 hf
        exact ⟨vis3, fun x hx => hmono3 x (hmono x hx), hlt3, hcl3, ht3⟩

/-- The packaged BFS call from the source `0`. -/
theorem bfs_spec {r : Nat → Nat → Int} {N t : Nat} (h1 : 1 ≤ N) :
    ∃ found parOut,
      bfs r N 0 t = some (found, parOut) ∧
      (found = true → t ≠ 0 ∧ ∃ (vis2 : Nat → Bool) (rk2 : Nat → Nat),
        ParOk r N 0 vis2 parOut rk2 ∧
        (∀ v, vis2 v = true → rk2 v < N) ∧ vis2 t = true) ∧
      (found = false → ∃ vis2 : Nat → Bool, vis2 0 = true ∧
        (∀ x, vis2 x = true → x < N) ∧
        (∀ x v, vis2 x = true → v < N → 0 < r x v → vis2 v = true) ∧
        (t ≠ 0 → vis2 t = false)) := by
  have hvis : ∀ x : Nat, (x == 0) = true ↔ x = 0 := fun x => beq_iff_eq
  obtain ⟨found, parOut, heq, htr, hfa⟩ :=
    bfsLoop_spec (r := r) (N := N) (s := 0) (t := t) (N + 1) [0]
      (fun x => x == 0) (fun _ => 0) (fun _ => 0) 1
      (by
        intro v hv
        have hv0 : v = 0 := (hvis v).mp hv
        subst hv0
        exact ⟨h1, fun h => absurd rfl h⟩)
      (fun v _ => Nat.lt_succ_self 0)
      (by
        have h0 : 0 ∈ (Finset.range N).filter fun x => (x == 0) = true :=
          Finset.mem_filter.mpr ⟨Finset.mem_range.mpr (by omega), by simp⟩
        exact Finset.card_pos.mpr ⟨0, h0⟩)
      (by
        intro x hx
        rcases List.mem_singleton.mp hx with rfl
        simp)
      (by simp)
      (by
        intro x hx
        have hx0 : x = 0 := (hvis x).mp hx
        subst hx0
        exact Or.inl (List.mem_singleton.mpr rfl))
      (by
        intro hts
        have : ¬ (t == 0) = true := fun h => hts ((hvis t).mp h)
        simpa using this)
      (by
        simp only [List.length_cons, List.length_nil]
        omega)
  refine ⟨found, parOut, heq, htr, ?_⟩
  intro hf
  obtain ⟨vis2, hmono, hlt, hcl, ht⟩ := hfa hf
  exact ⟨vis2, hmono 0 (by simp), hlt, hcl, ht⟩

/-- The parent walk from any visited node succeeds (given fuel above the
node rank) and produces the chain of BFS tree edges down to the source. -/
theorem walk_spec {r : Nat → Nat → Int} {N : Nat} {vis : Nat → Bool}
    {par rk : Nat → Nat} (hP : ParOk r N 0 vis par rk) :
    ∀ (fuel t : Nat), vis t = true → rk t < fuel →
      ∃ edges, walkEdges par fuel t = some edges ∧
        (∀ p ∈ edges, p.1 = par p.2 ∧ 0 < r p.1 p.2 ∧ p.1 < N ∧ p.2 < N ∧
          p.2 ≠ 0 ∧ rk p.1 < rk p.2) ∧
        ((t = 0 ∧ edges = []) ∨ ((edges.map Prod.snd).head? = some t ∧
          edges.map Prod.fst = (edges.map Prod.snd).tail ++ [0])) ∧
        List.Chain' (fun a b : Nat => rk b < rk a) (edges.map Prod.snd) := by
  intro fuel
  induction fuel with
  | zero =>
    intro t hvt hrk
    omega
  | succ fuel ih =>
    intro t hvt hrk
    by_cases ht0 : t = 0
    · subst ht0
      refine ⟨[], ?_, ?_, Or.inl ⟨rfl, rfl⟩, by simp⟩
      · rw [walkEdges, if_pos rfl]
      · intro p hp
        exact absurd hp (List.not_mem_nil p)
    · obtain ⟨hN, hrest⟩ := hP t hvt
      obtain ⟨hpvis, hplt, hpr⟩ := hrest ht0
      obtain ⟨edges0, heq0, hfacts0, hstruct0, hchain0⟩ := ih (par t) hpvis (by omega)
      refine ⟨(par t, t) :: edges0, ?_, ?_, ?_, ?_⟩
      · rw [walkEdges, if_neg ht0, heq0]
      · intro p hp
        rcases List.mem_cons.mp hp with rfl | hp2
        · exact ⟨rfl, hpr, (hP (par t) hpvis).1, hN, ht0, hplt⟩
        · exact hfacts0 p hp2
      · right
        rcases hstruct0 with ⟨hp0, rfl⟩ | ⟨hhead, hfst⟩
        · simp [hp0]
        · constructor
          · simp
          · have hcons : ∃ tl, edges0.map Prod.snd = par t :: tl := by
              cases hsn : edges0.map Prod.snd with
              | nil => rw [hsn] at hhead; exact absurd hhead (by simp)
              | cons b tl =>
                rw [hsn] at hhead
                refine ⟨tl, ?_⟩
                simp only [List.head?_cons, Option.some_inj] at hhead
                rw [hhead]
            obtain ⟨tl, htl⟩ := hcons
            rw [List.map_cons, List.map_cons, htl, hfst, htl]
            simp
      · rw [List.map_cons]
        rw [List.chain'_cons']
        refine ⟨?_, hchain0⟩
        intro b hb
        rcases hstruct0 with ⟨hp0, rfl⟩ | ⟨hhead, _⟩
        · exact absurd hb (by simp)
        · rw [hhead] at hb
          rcases Option.mem_some_iff.mp hb with rfl
          exact hplt

/-- `List.count` over a cons of pairs, with a propositional test. -/
theorem count_cons_pair (a b : Nat × Nat) (l : List (Nat × Nat)) :
    (b :: l).count a = l.count a + if a = b then 1 else 0 := by
  rw [List.count_cons]
  by_cases h : a = b
  · rw [if_pos h, if_pos (by rw [beq_iff_eq]; exact h.symm)]
  · rw [if_neg h, if_neg (by rw [beq_iff_eq]; intro h2; exact h h2.symm)]

/-- `List.count` over a cons of naturals, with a propositional test. -/
theorem count_cons_nat (a b : Nat) (l : List Nat) :
    (b :: l).count a = l.count a + if a = b then 1 else 0 := by
  rw [List.count_cons]
  by_cases h : a = b
  · rw [if_pos h, if_pos (by rw [beq_iff_eq]; exact h.symm)]
  · rw [if_neg h, if_neg (by rw [beq_iff_eq]; intro h2; exact h h2.symm)]

/-- Pointwise value of the augmentation writes: each cell loses the
bottleneck once per forward occurrence and gains it once per reverse
occurrence of the pair in the walked list. -/
theorem applyAug_val (f : Int) :
    ∀ (edges : List (Nat × Nat)) (r : Nat → Nat → Int) (x y : Nat),
      applyAug f edges r x y
        = r x y - f * (edges.count (x, y) : Int) + f * (edges.count (y, x) : Int) := by
  intro edges
  induction edges with
  | nil =>
    intro r x y
    simp [applyAug]
  | cons p rest ih =>
    obtain ⟨u, v⟩ := p
    intro r x y
    have hstep : applyAug f ((u, v) :: rest) r
        = applyAug f rest (updRes (updRes r u v (-f)) v u f) := rfl
    rw [hstep, ih]
    have hbase : updRes (updRes r u v (-f)) v u f x y
        = r x y + (if x = u ∧ y = v then -f else 0) + (if x = v ∧ y = u then f else 0) := by
      simp only [updRes]
      by_cases h1 : x = v ∧ y = u
      · by_cases h2 : x = u ∧ y = v
        · rw [if_pos h1, if_pos h2, if_pos h2, if_pos h1]
          all_goals ring
        · rw [if_pos h1, if_neg h2, if_neg h2, if_pos h1]
          all_goals ring
      · by_cases h2 : x = u ∧ y = v
        · rw [if_neg h1, if_pos h2, if_pos h2, if_neg h1]
          all_goals ring
        · rw [if_neg h1, if_neg h2, if_neg h2, if_neg h1]
          all_goals ring
    rw [hbase]
    have hc1 : (((u, v) :: rest).count (x, y) : Int)
        = (rest.count (x, y) : Int) + (if x = u ∧ y = v then 1 else 0) := by
      rw [count_cons_pair]
      by_cases h : x = u ∧ y = v
      · have hp : (x, y) = (u, v) := by
          rw [Prod.mk.injEq]
          exact h
        rw [if_pos hp, if_pos h]
        push_cast
        ring
      · have hp : ¬ ((x, y) = (u, v)) := by
          rw [Prod.mk.injEq]
          exact h
        rw [if_neg hp, if_neg h]
        push_cast
        ring
    have hc2 : (((u, v) :: rest).count (y, x) : Int)
        = (rest.count (y, x) : Int) + (if x = v ∧ y = u then 1 else 0) := by
      rw [count_cons_pair]
      by_cases h : x = v ∧ y = u
      · have hp : (y, x) = (u, v) := by
          rw [Prod.mk.injEq]
          exact ⟨h.2, h.1⟩
        rw [if_pos hp, if_pos h]
        push_cast
        ring
      · have hp : ¬ ((y, x) = (u, v)) := by
          rw [Prod.mk.injEq]
          intro h2
          exact h ⟨h2.2, h2.1⟩
        rw [if_neg hp, if_neg h]
        push_cast
        ring
    rw [hc1, hc2]
    have e1 : (if x = u ∧ y = v then -f else 0)
        = -(f * if x = u ∧ y = v then 1 else 0) := by
      by_cases h : x = u ∧ y = v
      · rw [if_pos h, if_pos h]
        ring
      · rw [if_neg h, if_neg h]
        ring
    have e2 : (if x = v ∧ y = u then f else 0)
        = f * (if x = v ∧ y = u then 1 else 0) := by
      by_cases h : x = v ∧ y = u
      · rw [if_pos h, if_pos h]
        ring
      · rw [if_neg h, if_neg h]
        ring
    rw [e1, e2]
    ring

/-- A pair occurs at most as often as its second component occurs among
the second components. -/
theorem count_le_count_snd {edges : List (Nat × Nat)} {x y : Nat} :
    edges.count (x, y) ≤ (edges.map Prod.snd).count y := by
  induction edges with
  | nil => simp
  | cons p rest ih =>
    rw [count_cons_pair, List.map_cons, count_cons_nat]
    by_cases h1 : (x, y) = p
    · have h2 : y = p.2 := by rw [← h1]
      rw [if_pos h1, if_pos h2]
      omega
    · rw [if_neg h1]
      by_cases h2 : y = p.2
      · rw [if_pos h2]
        omega
      · rw [if_neg h2]
        omega

/-- Summing the pair count over all second components below `N` yields the
first-component count. -/
theorem sum_count_snd {N w : Nat} :
    ∀ (edges : List (Nat × Nat)), (∀ p ∈ edges, p.2 < N) →
      ∑ v in Finset.range N, edges.count (w, v) = (edges.map Prod.fst).count w := by
  intro edges
  induction edges with
  | nil =>
    intro _
    simp
  | cons p rest ih =>
    intro hb
    obtain ⟨u, v⟩ := p
    have hvN : v < N := hb (u, v) (List.mem_cons_self _ _)
    have hrest : ∀ p ∈ rest, p.2 < N := fun p hp => hb p (List.mem_cons_of_mem _ hp)
    have hsplit : ∀ v2, ((u, v) :: rest).count (w, v2)
        = rest.count (w, v2) + if (w, v2) = (u, v) then 1 else 0 :=
      fun v2 => count_cons_pair _ _ _
    rw [Finset.sum_congr rfl fun v2 _ => hsplit v2, Finset.sum_add_distrib, ih hrest]
    have hind : (∑ v2 in Finset.range N, if (w, v2) = (u, v) then 1 else 0)
        = if w = u then 1 else 0 := by
      by_cases hwu : w = u
      · subst hwu
        rw [if_pos rfl]
        have hcongr : ∀ v2 ∈ Finset.range N,
            (if (w, v2) = (w, v) then (1 : Nat) else 0) = if v2 = v then 1 else 0 := by
          intro v2 _
          by_cases hv2 : v2 = v
          · rw [if_pos (by rw [hv2]), if_pos hv2]
          · rw [if_neg (by
              rw [Prod.mk.injEq]
              intro h2
              exact hv2 h2.2), if_neg hv2]
        rw [Finset.sum_congr rfl hcongr, Finset.sum_ite_eq' (Finset.range N) v fun _ => 1,
          if_pos (Finset.mem_range.mpr hvN)]
      · rw [if_neg hwu]
        apply Finset.sum_eq_zero
        intro v2 _
        rw [if_neg (by
          rw [Prod.mk.injEq]
          intro h2
          exact hwu h2.1)]
    rw [hind, List.map_cons, count_cons_nat]

/-- Summing the pair count over all first components below `N` yields the
second-component count. -/
theorem sum_count_fst {N w : Nat} :
    ∀ (edges : List (Nat × Nat)), (∀ p ∈ edges, p.1 < N) →
      ∑ v in Finset.range N, edges.count (v, w) = (edges.map Prod.snd).count w := by
  intro edges
  induction edges with
  | nil =>
    intro _
    simp
  | cons p rest ih =>
    intro hb
    obtain ⟨u, v⟩ := p
    have huN : u < N := hb (u, v) (List.mem_cons_self _ _)
    have hrest : ∀ p ∈ rest, p.1 < N := fun p hp => hb p (List.mem_cons_of_mem _ hp)
    have hsplit : ∀ v2, ((u, v) :: rest).count (v2, w)
        = rest.count (v2, w) + if (v2, w) = (u, v) then 1 else 0 :=
      fun v2 => count_cons_pair _ _ _
    rw [Finset.sum_congr rfl fun v2 _ => hsplit v2, Finset.sum_add_distrib, ih hrest]
    have hind : (∑ v2 in Finset.range N, if (v2, w) = (u, v) then 1 else 0)
        = if w = v then 1 else 0 := by
      by_cases hwv : w = v
      · subst hwv
        rw [if_pos rfl]
        have hcongr : ∀ v2 ∈ Finset.range N,
            (if (v2, w) = (u, w) then (1 : Nat) else 0) = if v2 = u then 1 else 0 := by
          intro v2 _
          by_cases hv2 : v2 = u
          · rw [if_pos (by rw [hv2]), if_pos hv2]
          · rw [if_neg (by
              rw [Prod.mk.injEq]
              intro h2
              exact hv2 h2.1), if_neg hv2]
        rw [Finset.sum_congr rfl hcongr, Finset.sum_ite_eq' (Finset.range N) u fun _ => 1,
          if_pos (Finset.mem_range.mpr huN)]
      · rw [if_neg hwv]
        apply Finset.sum_eq_zero
        intro v2 _
        rw [if_neg (by
          rw [Prod.mk.injEq]
          intro h2
          exact hwv h2.2)]
    rw [hind, List.map_cons, count_cons_nat]

/-- Everything one successful augmentation step guarantees: the bottleneck
is positive, non-negativity survives, symmetric sums are untouched, row
sums shift by the bottleneck times the walk degree, and the walk leaves
the source exactly once and never enters it. -/
theorem augment_spec {N : Nat} {r : Nat → Nat → Int} {par : Nat → Nat}
    {edges : List (Nat × Nat)} {f : Int} (h1 : 1 ≤ N)
    (hnn : ∀ u v, u < N → v < N → 0 ≤ r u v)
    (hbfs : bfs r N 0 (N - 1) = some (true, par))
    (hwalk : walkEdges par N (N - 1) = some edges)
    (hmin : (edges.map fun p => r p.1 p.2).min? = some f) :
    1 ≤ f ∧
    (∀ u v, u < N → v < N → 0 ≤ applyAug f edges r u v) ∧
    (∀ u v, applyAug f edges r u v + applyAug f edges r v u = r u v + r v u) ∧
    (∀ w, (∑ v in Finset.range N, applyAug f edges r w v)
      = ∑ v in Finset.range N, r w v
        - f * ((edges.map Prod.fst).count w : Int)
        + f * ((edges.map Prod.snd).count w : Int)) ∧
    (edges.map Prod.fst).count 0 = 1 ∧
    (edges.map Prod.snd).count 0 = 0 ∧
    (∀ w, w ≠ 0 → w ≠ N - 1 →
      (edges.map Prod.fst).count w = (edges.map Prod.snd).count w) ∧
    N - 1 ≠ 0 := by
  obtain ⟨found, par2, heq, htr, _⟩ := bfs_spec (r := r) (N := N) (t := N - 1) h1
  rw [hbfs] at heq
  injection heq with h2
  injection h2 with hfound hpar
  subst hfound
  subst hpar
  obtain ⟨hts, vis2, rk2, hP2, hrkN, hvt⟩ := htr rfl
  obtain ⟨edges2, hweq, hfacts, hstruct, hchain⟩ :=
    walk_spec hP2 N (N - 1) hvt (hrkN _ hvt)
  rw [hwalk] at hweq
  have hedges : edges = edges2 := Option.some.inj hweq
  subst hedges
  rcases hstruct with ⟨h0, _⟩ | ⟨hhead, hfst⟩
  · exact absurd h0 hts
  have hndsnd : (edges.map Prod.snd).Nodup := by
    haveI : IsTrans Nat (fun a b : Nat => rk2 b < rk2 a) :=
      ⟨fun a b c hab hbc => lt_trans hbc hab⟩
    have hpair := List.chain'_iff_pairwise.mp hchain
    exact hpair.imp fun h heq2 => absurd (heq2 ▸ h) (lt_irrefl _)
  have h0snd : (0 : Nat) ∉ edges.map Prod.snd := by
    intro h
    obtain ⟨p, hp, hp2⟩ := List.mem_map.mp h
    exact (hfacts p hp).2.2.2.2.1 hp2
  obtain ⟨tl, htl⟩ : ∃ tl, edges.map Prod.snd = (N - 1) :: tl := by
    cases hsn : edges.map Prod.snd with
    | nil =>
      rw [hsn] at hhead
      exact absurd hhead (by simp)
    | cons b tl2 =>
      rw [hsn] at hhead
      simp only [List.head?_cons, Option.some_inj] at hhead
      exact ⟨tl2, by rw [hhead]⟩
  have h0tl : (0 : Nat) ∉ tl := fun h => h0snd (htl ▸ List.mem_cons_of_mem _ h)
  have hout0 : (edges.map Prod.fst).count 0 = 1 := by
    rw [hfst, htl]
    simp only [List.tail_cons]
    rw [List.count_append, List.count_eq_zero.mpr h0tl]
    simp
  have hin0 : (edges.map Prod.snd).count 0 = 0 := List.count_eq_zero.mpr h0snd
  have hbal : ∀ w, w ≠ 0 → w ≠ N - 1 →
      (edges.map Prod.fst).count w = (edges.map Prod.snd).count w := by
    intro w hw0 hwt
    rw [hfst, htl]
    simp only [List.tail_cons]
    have hc0 : ([0] : List Nat).count w = 0 :=
      List.count_eq_zero.mpr (by simp [hw0])
    rw [List.count_append, count_cons_nat w (N - 1) tl, hc0, if_neg hwt]
  have hf1 : (1 : Int) ≤ f := by
    have hmem := minQ_mem hmin
    obtain ⟨p, hp, hpe⟩ := List.mem_map.mp hmem
    have hpr := (hfacts p hp).2.1
    omega
  have hfle : ∀ p ∈ edges, f ≤ r p.1 p.2 := fun p hp =>
    minQ_le hmin _ (List.mem_map_of_mem _ hp)
  have hcle1 : ∀ x y : Nat, edges.count (x, y) ≤ 1 := fun x y =>
    le_trans count_le_count_snd (List.nodup_iff_count_le_one.mp hndsnd y)
  have hnorev : ∀ x y : Nat, (x, y) ∈ edges → (y, x) ∈ edges → False := by
    intro x y hxy hyx
    have ha : rk2 x < rk2 y := (hfacts (x, y) hxy).2.2.2.2.2
    have hb : rk2 y < rk2 x := (hfacts (y, x) hyx).2.2.2.2.2
    omega
  have hcount_mem : ∀ x y : Nat, (x, y) ∈ edges → edges.count (x, y) = 1 := by
    intro x y hm
    have hpos : 0 < edges.count (x, y) := List.count_pos_iff_mem.mpr hm
    have := hcle1 x y
    omega
  have hcount_not : ∀ x y : Nat, (x, y) ∉ edges → edges.count (x, y) = 0 :=
    fun x y hm => List.count_eq_zero.mpr hm
  refine ⟨hf1, ?_, ?_, ?_, hout0, hin0, hbal, hts⟩
  · intro u v hu hv
    rw [applyAug_val]
    by_cases hmem : (u, v) ∈ edges
    · have hc1 : edges.count (u, v) = 1 := hcount_mem u v hmem
      have hc2 : edges.count (v, u) = 0 :=
        hcount_not v u fun h => hnorev u v hmem h
      rw [hc1, hc2]
      have hle2 : f ≤ r u v := hfle (u, v) hmem
      simp only [Nat.cast_one, Nat.cast_zero]
      omega
    · have hc1 : edges.count (u, v) = 0 := hcount_not u v hmem
      rw [hc1]
      by_cases hmem2 : (v, u) ∈ edges
      · have hc2 : edges.count (v, u) = 1 := hcount_mem v u hmem2
        rw [hc2]
        have := hnn u v hu hv
        simp only [Nat.cast_one, Nat.cast_zero]
        omega
      · have hc2 : edges.count (v, u) = 0 := hcount_not v u hmem2
        rw [hc2]
        have := hnn u v hu hv
        simp only [Nat.cast_zero]
        omega
  · intro u v
    rw [applyAug_val, applyAug_val]
    ring
  · intro w
    have hcongr : ∀ v ∈ Finset.range N, applyAug f edges r w v
        = r w v - f * (edges.count (w, v) : Int) + f * (edges.count (v, w) : Int) :=
      fun v _ => applyAug_val f edges r w v
    rw [Finset.sum_congr rfl hcongr, Finset.sum_add_distrib, Finset.sum_sub_distrib,
      ← Finset.mul_sum, ← Finset.mul_sum, ← Nat.cast_sum, ← Nat.cast_sum,
      sum_count_snd edges (fun p hp => (hfacts p hp).2.2.2.1),
      sum_count_fst edges (fun p hp => (hfacts p hp).2.2.1)]

/-- The augmentation loop terminates within its fuel, preserves the flow
invariant, and stops at a saturated cut. -/
theorem ffLoop_spec {C : Mat} {N : Nat} (h2 : 2 ≤ N) :
    ∀ (fuel : Nat) (r : Nat → Nat → Int) (acc : Int),
      FlowInv C N r acc →
      (∑ v in Finset.range N, r 0 v) < (fuel : Int) →
      ∃ (F : Int) (r2 : Nat → Nat → Int),
        ffLoop N fuel r acc = some F ∧ FlowInv C N r2 F ∧
        ∃ S : Finset Nat, S ⊆ Finset.range N ∧ 0 ∈ S ∧ (N - 1) ∉ S ∧
          ∀ u v, u ∈ S → v ∈ Finset.range N → v ∉ S → r2 u v = 0 := by
  intro fuel
  induction fuel with
  | zero =>
    intro r acc hInv hfuel
    exfalso
    have hge : 0 ≤ ∑ v in Finset.range N, r 0 v :=
      Finset.sum_nonneg fun v hv => hInv.1 0 v (by omega) (Finset.mem_range.mp hv)
    simp only [Nat.cast_zero] at hfuel
    omega
  | succ fuel ih =>
    intro r acc hInv hfuel
    obtain ⟨hnn, hsym, hcons, hacc⟩ := hInv
    obtain ⟨found, par, hbfs, htr, hfa⟩ :=
      bfs_spec (r := r) (N := N) (t := N - 1) (by omega)
    cases found with
    | false =>
      obtain ⟨vis2, hv0, hvlt, hvcl, hvt⟩ := hfa rfl
      refine ⟨acc, r, ?_, ⟨hnn, hsym, hcons, hacc⟩, ?_⟩
      · rw [ffLoop, hbfs]
      · refine ⟨(Finset.range N).filter fun x => vis2 x = true,
          Finset.filter_subset _ _,
          Finset.mem_filter.mpr ⟨Finset.mem_range.mpr (by omega), hv0⟩, ?_, ?_⟩
        · intro hmem
          have hmem2 := (Finset.mem_filter.mp hmem).2
          rw [hvt (by omega)] at hmem2
          simp at hmem2
        · intro u v hu hv hvnot
          have hvisu := (Finset.mem_filter.mp hu).2
          have hvN := Finset.mem_range.mp hv
          have huN := Finset.mem_range.mp (Finset.filter_subset _ _ hu)
          by_contra hne
          have hpos : 0 < r u v := lt_of_le_of_ne (hnn u v huN hvN) (Ne.symm hne)
          exact hvnot (Finset.mem_filter.mpr ⟨hv, hvcl u v hvisu hvN hpos⟩)
    | true =>
      obtain ⟨hts, vis2, rk2, hP2, hrkN, hvt⟩ := htr rfl
      obtain ⟨edges, hweq, hfacts, hstruct, hchain⟩ :=
        walk_spec hP2 N (N - 1) hvt (hrkN _ hvt)
      have hne : edges ≠ [] := by
        rcases hstruct with ⟨h0, _⟩ | ⟨hhead, _⟩
        · exact absurd h0 hts
        · intro h
          rw [h] at hhead
          exact absurd hhead (by simp)
      have hmapne : edges.map (fun p => r p.1 p.2) ≠ [] := by
        intro h
        exact hne (List.map_eq_nil.mp h)
      obtain ⟨f, hmin⟩ := Option.isSome_iff_exists.mp (minQ_isSome_iff.mpr hmapne)
      obtain ⟨hf1, hnn3, hskew, hrow, hout0, hin0, hbal, _⟩ :=
        augment_spec (by omega) hnn hbfs hweq hmin
      have hInv3 : FlowInv C N (applyAug f edges r) (acc + f) := by
        refine ⟨hnn3, ?_, ?_, ?_⟩
        · intro u v hu hv
          rw [hskew u v]
          exact hsym u v hu hv
        · intro w hw hw0 hwt
          have hzero := hcons w hw hw0 hwt
          rw [Finset.sum_sub_distrib] at hzero ⊢
          rw [hrow w, hbal w hw0 hwt, sub_add_cancel]
          exact hzero
        · rw [Finset.sum_sub_distrib] at hacc ⊢
          rw [hrow 0, hout0, hin0]
          simp only [Nat.cast_one, Nat.cast_zero, mul_one, mul_zero, add_zero]
          omega
      have hmeasure : (∑ v in Finset.range N, applyAug f edges r 0 v)
          < (fuel : Int) := by
        rw [hrow 0, hout0, hin0]
        simp only [Nat.cast_one, Nat.cast_zero, mul_one, mul_zero, add_zero]
        omega
      obtain ⟨F, r2, heq2, hInv2, hcut⟩ :=
        ih (applyAug f edges r) (acc + f) hInv3 hmeasure
      refine ⟨F, r2, ?_, hInv2, hcut⟩
      have hcomp : ffLoop N (fuel + 1) r acc
          = ffLoop N fuel (applyAug f edges r) (acc + f) := by
        rw [ffLoop]
        simp only [hbfs, hweq, hmin]
      rw [hcomp]
      exact heq2

/-- The flow invariant evaluates the accumulator as the net flow across
any source-sink cut. -/
theorem flow_value_cut {C : Mat} {N : Nat} {r : Nat → Nat → Int} {acc : Int}
    (hInv : FlowInv C N r acc) {S : Finset Nat}
    (hS : S ⊆ Finset.range N) (h0 : 0 ∈ S) (ht : (N - 1) ∉ S) :
    acc = ∑ u in S, ∑ v in (Finset.range N).filter (fun v => v ∉ S),
      ((C u v : Int) - r u v) := by
  obtain ⟨hnn, hsym, hcons, hacc⟩ := hInv
  have h1 : acc = ∑ u in S, ∑ v in Finset.range N, ((C u v : Int) - r u v) := by
    rw [Finset.sum_eq_single_of_mem 0 h0]
    · exact hacc
    · intro u huS hu0
      exact hcons u (Finset.mem_range.mp (hS huS)) hu0
        (fun h => ht (h ▸ huS))
  have h2 : ∀ u : Nat, (∑ v in Finset.range N, ((C u v : Int) - r u v))
      = (∑ v in (Finset.range N).filter (fun v => v ∈ S), ((C u v : Int) - r u v))
        + ∑ v in (Finset.range N).filter (fun v => v ∉ S), ((C u v : Int) - r u v) :=
    fun u => (Finset.sum_filter_add_sum_filter_not _ _ _).symm
  have h3 : (Finset.range N).filter (fun v => v ∈ S) = S := by
    ext x
    rw [Finset.mem_filter]
    exact ⟨fun h => h.2, fun h => ⟨hS h, h⟩⟩
  have hskewS : ∀ u v, u ∈ S → v ∈ S →
      ((C u v : Int) - r u v) = -((C v u : Int) - r v u) := by
    intro u v hu hv
    have := hsym u v (Finset.mem_range.mp (hS hu)) (Finset.mem_range.mp (hS hv))
    omega
  have h4 : (∑ u in S, ∑ v in S, ((C u v : Int) - r u v)) = 0 := by
    have hstep : (∑ u in S, ∑ v in S, ((C u v : Int) - r u v))
        = -∑ u in S, ∑ v in S, ((C u v : Int) - r u v) := by
      calc (∑ u in S, ∑ v in S, ((C u v : Int) - r u v))
          = ∑ a in S, ∑ b in S, ((C b a : Int) - r b a) := Finset.sum_comm
        _ = ∑ a in S, ∑ b in S, -((C a b : Int) - r a b) := by
            apply Finset.sum_congr rfl
            intro a ha
            apply Finset.sum_congr rfl
            intro b hb
            exact hskewS b a hb ha
        _ = -∑ u in S, ∑ v in S, ((C u v : Int) - r u v) := by
            simp only [Finset.sum_neg_distrib]
    linarith
  rw [h1, Finset.sum_congr rfl fun u _ => h2 u, Finset.sum_add_distrib, h3, h4,
    zero_add]

/-- The BFS parent chain witnesses positive-residual reachability. -/
theorem reach_of_parok {r : Nat → Nat → Int} {N : Nat} {vis : Nat → Bool}
    {par rk : Nat → Nat} (hP : ParOk r N 0 vis par rk) :
    ∀ n v, vis v = true → rk v < n → ResReach r N 0 v := by
  intro n
  induction n with
  | zero =>
    intro v _ h
    omega
  | succ n ih =>
    intro v hv hrk
    by_cases hv0 : v = 0
    · subst hv0
      exact Relation.ReflTransGen.refl
    · obtain ⟨hvN, hrest⟩ := hP v hv
      obtain ⟨hp1, hp2, hp3⟩ := hrest hv0
      have hparN : par v < N := (hP (par v) hp1).1
      exact Relation.ReflTransGen.tail (ih (par v) hp1 (by omega)) ⟨hparN, hvN, hp3⟩

/-- List-range sums agree with `Finset.range` sums. -/
theorem list_range_sum (g : Nat → Nat) :
    ∀ n, ((List.range n).map g).sum = ∑ v in Finset.range n, g v := by
  intro n
  induction n with
  | zero => simp
  | succ n ih =>
    rw [List.range_succ, List.map_append, List.sum_append, Finset.sum_range_succ, ih]
    simp

/-- C8: with one node (source = sink) or no positive-capacity path from
source to sink, the Max-Flow Solver returns flow `0` and no error. -/
theorem maxflow_zero_when_no_path {C : Mat} {N : Nat} (h1 : 1 ≤ N)
    (h : N = 1 ∨ ¬ ResReach (fun u v => (C u v : Int)) N 0 (N - 1)) :
    computeMaxFlow C N = some 0 := by
  obtain ⟨found, par, hbfs, htr, hfa⟩ :=
    bfs_spec (r := fun u v => (C u v : Int)) (N := N) (t := N - 1) h1
  cases found with
  | true =>
    exfalso
    obtain ⟨hts, vis2, rk2, hP2, hrkN, hvt⟩ := htr rfl
    rcases h with h1' | hnr
    · exact hts (by omega)
    · exact hnr (reach_of_parok hP2 N (N - 1) hvt (hrkN _ hvt))
  | false =>
    rw [computeMaxFlow, ffLoop]
    simp only [hbfs]

/-- Witness for C8 at the one-node capacity matrix `exCap3`. -/
theorem maxflow_zero_when_no_path_witness : computeMaxFlow exCap3 1 = some 0 :=
  maxflow_zero_when_no_path (C := exCap3) (N := 1) (by decide) (Or.inl rfl)

/-- C9: every residual state the augmentation loop reaches keeps all
in-range entries non-negative and preserves `r[u][v] + r[v][u] =
C[u][v] + C[v][u]`; each step subtracts the walk bottleneck forward and
adds it backward by construction of `applyAug`. -/
theorem residual_invariant {C : Mat} {N : Nat} (h1 : 1 ≤ N)
    {r : Nat → Nat → Int} (h : ReachState C N r) :
    ∀ u v, u < N → v < N →
      0 ≤ r u v ∧ r u v + r v u = (C u v : Int) + (C v u : Int) := by
  induction h with
  | init =>
    intro u v hu hv
    exact ⟨Int.natCast_nonneg _, rfl⟩
  | @step r par edges f hre hbfs hwalk hmin ih =>
    intro u v hu hv
    have hnn : ∀ u v, u < N → v < N → 0 ≤ r u v := fun a b ha hb => (ih a b ha hb).1
    obtain ⟨hf1, hnn3, hskew, _, _, _, _, _⟩ := augment_spec h1 hnn hbfs hwalk hmin
    refine ⟨hnn3 u v hu hv, ?_⟩
    rw [hskew u v]
    exact (ih u v hu hv).2

/-- Witness for C9 at the initial residual state of `exCap3`. -/
theorem residual_invariant_witness :
    0 ≤ (fun u v => (exCap3 u v : Int)) 0 1 ∧
      (fun u v => (exCap3 u v : Int)) 0 1 + (fun u v => (exCap3 u v : Int)) 1 0
        = (exCap3 0 1 : Int) + (exCap3 1 0 : Int) :=
  residual_invariant (C := exCap3) (N := 2) (by decide) ReachState.init 0 1
    (by decide) (by decide)

/-- C4: the Max-Flow Solver returns a value that is at most the capacity
of every source-sink cut and equals the capacity of some such cut (the
max-flow/min-cut equality). -/
theorem maxflow_min_cut {C : Mat} {N : Nat} (h2 : 2 ≤ N) :
    ∃ F, computeMaxFlow C N = some F ∧
      (∀ S : Finset Nat, S ⊆ Finset.range N → 0 ∈ S → (N - 1) ∉ S →
        F ≤ cutCap C N S) ∧
      ∃ S : Finset Nat, S ⊆ Finset.range N ∧ 0 ∈ S ∧ (N - 1) ∉ S ∧
        F = cutCap C N S := by
  have hInv0 : FlowInv C N (fun u v => (C u v : Int)) 0 :=
    ⟨fun u v _ _ => Int.natCast_nonneg _, fun u v _ _ => rfl,
      fun w _ _ _ => Finset.sum_eq_zero fun v _ => sub_self _,
      (Finset.sum_eq_zero fun v _ => sub_self _).symm⟩
  have hfuel0 : (∑ v in Finset.range N, ((C 0 v : Int)))
      < (((((List.range N).map fun v => C 0 v).sum) + 1 : Nat) : Int) := by
    have hl : (((List.range N).map fun v => C 0 v).sum : Int)
        = ∑ v in Finset.range N, ((C 0 v : Int)) := by
      rw [list_range_sum (fun v => C 0 v) N]
      exact Nat.cast_sum _ _
    rw [← hl]
    push_cast
    omega
  obtain ⟨F, r2, heq, hInv2, S0, hS0, h00, ht0, hzero⟩ :=
    ffLoop_spec h2 _ _ 0 hInv0 hfuel0
  refine ⟨F, ?_, ?_, ?_⟩
  · rw [computeMaxFlow]
    exact heq
  · intro S hS h0S htS
    have hval := flow_value_cut hInv2 hS h0S htS
    rw [hval, cutCap]
    apply Finset.sum_le_sum
    intro u hu
    apply Finset.sum_le_sum
    intro v hv
    have huN := Finset.mem_range.mp (hS hu)
    have hvN := Finset.mem_range.mp (Finset.mem_filter.mp hv).1
    have hr := hInv2.1 u v huN hvN
    omega
  · refine ⟨S0, hS0, h00, ht0, ?_⟩
    have hval := flow_value_cut hInv2 hS0 h00 ht0
    rw [hval, cutCap]
    apply Finset.sum_congr rfl
    intro u hu
    apply Finset.sum_congr rfl
    intro v hv
    have hm := Finset.mem_filter.mp hv
    rw [hzero u v hu hm.1 hm.2]
    ring

/-- Witness for C4 at the concrete two-node matrix `exCap2`. -/
theorem maxflow_min_cut_witness :
    ∃ F, computeMaxFlow exCap2 2 = some F ∧
      (∀ S : Finset Nat, S ⊆ Finset.range 2 → 0 ∈ S → (2 - 1) ∉ S →
        F ≤ cutCap exCap2 2 S) ∧
      ∃ S : Finset Nat, S ⊆ Finset.range 2 ∧ 0 ∈ S ∧ (2 - 1) ∉ S ∧
        F = cutCap exCap2 2 S :=
  maxflow_min_cut (C := exCap2) (N := 2) (by decide)

/-- C5 counterexample: on the all-zero two-node input the Exact Tour
Solver and the Max-Flow Solver each succeed on their own, but the
Spanning Tree Builder's Disconnected failure aborts the whole run — no
combined output is produced, refuting per-solver failure isolation. -/
theorem mst_failure_aborts_all :
    (∃ msg, buildMinimumSpanningTree (fun _ _ => 0) 2 = some (Except.error msg) ∧
      runAll (fun _ _ => 0) (fun _ _ => 0) 2 = some (Except.error msg)) ∧
    (∃ v p, solveExactTour (fun _ _ => 0) 2 = some (v, p)) ∧
    (∃ F, computeMaxFlow (fun _ _ => 0) 2 = some F) ∧
    ∀ out, runAll (fun _ _ => 0) (fun _ _ => 0) 2 ≠ some (Except.ok out) := by
  refine ⟨⟨"No edges found in the distance matrix. The graph is disconnected.",
    rfl, rfl⟩, ⟨0, [0, 1, 0], rfl⟩, ⟨0, rfl⟩, ?_⟩
  intro out h
  have heval : runAll (fun _ _ => 0) (fun _ _ => 0) 2 = some (Except.error
      "No edges found in the distance matrix. The graph is disconnected.") := rfl
  rw [heval] at h
  simp at h

/-- C5 (amended): a Disconnected failure of the Spanning Tree Builder
propagates: the single try/catch makes the whole run report that error
instead of running the remaining solvers. -/
theorem mst_failure_propagates {D C : Mat} {N : Nat} {e : String}
    (h : buildMinimumSpanningTree D N = some (Except.error e)) :
    runAll D C N = some (Except.error e) := by
  unfold runAll
  rw [h]

/-- Witness for the amended C5 at a concrete three-node all-zero input. -/
theorem mst_failure_propagates_witness :
    runAll (fun _ _ => 0) (fun _ _ => 0) 3 = some (Except.error
      "No edges found in the distance matrix. The graph is disconnected.") :=
  mst_failure_propagates (by rfl)

end Act7
